import Mathlib

/-!
Verification development for the htcache repository.

This file shallowly embeds the parts of the source that the verified
properties talk about:

* `src/frame.rs` — the RESP `Frame` type, `Frame::encode`, and the decoder
  (`decode`, `get_simple_string`, `get_bulk_string`, `decode_array`,
  `decode_map`, and the `Ord for Frame` comparison used by the `BTreeMap`
  of a `Map` frame).
* `src/db/cmap.rs` — the sharded store `CMap` (`set_kv`, `get_value`,
  `del_entries`, `delete_shard_entries`, `get_shard_key_mapping`,
  `get_shard_index`) over association-list buckets.
* `src/db/cache.rs` — `State` (`set_kv`, `evict_expired_keys`,
  `get_last_item_before_cutoff`, `delete_entries`) with the tracking index
  modelled as the sorted element list of the `BTreeSet`.
* `src/cmd/ping.rs` — `Ping::from` and `Ping::apply`.

Modelling conventions:
* Rust byte buffers are `List Nat` (one `Nat` per byte); Rust `String`
  payloads inside frames are byte lists as well (`String::from_utf8`
  validation is not modelled — every buffer a claim mentions is ASCII).
* The `io::Cursor` is an explicit position `Nat`; every cursor-using
  function returns its result together with the final position.
* `usize` arithmetic that can wrap does so modulo `2 ^ 64`, written
  explicitly at the single place it can occur (`get_bulk_string`).
* A Rust `panic!` (the `Ord for Frame` arm for distinct variants, and the
  out-of-range byteSlice in `get_bulk_string`) is the explicit result
  constructor `Panicked`.
* The decoder recursion is bounded by structural fuel; `decode` passes
  `buf.length + 1`, which over-approximates the nesting depth the Rust
  recursion can reach (each nested frame begins at a strictly larger
  cursor position).
-/

/-- ASCII LF, `const LF: u8 = b'\n'` in frame.rs. -/
def LF : Nat := 10

/-- ASCII CR, `const CR: u8 = b'\r'` in frame.rs. -/
def CR : Nat := 13

/-- The bytes of `buf` with indices in the interval from `a` to `b` exclusive. -/
def byteSlice (buf : List Nat) (a b : Nat) : List Nat :=
  (buf.take b).drop a

/-- The `Frame` enum of frame.rs.  `Simple`/`Error`/`Bulk` payloads are byte
lists; `Map` is the ascending element list of the Rust `BTreeMap`. -/
inductive Frame where
  | Simple (s : List Nat)
  | Error (s : List Nat)
  | Integer (i : Int)
  | Bulk (s : List Nat)
  | Array (elems : List Frame)
  | Null
  | Boolean (b : Bool)
  | Map (entries : List (Frame × Frame))

/-- The `FrameError` variants the decoder can produce. -/
inductive FrameError where
  | Incomplete
  | InvalidFrame
  | InvalidType
  | IntFromUTF8
deriving DecidableEq

/-- Decimal digit recursion with structural fuel (the recursion divides by
ten, so any fuel above the argument suffices and the result is
fuel-independent, see `natDigitsGo_congr`). -/
def natDigitsGo : Nat → Nat → List Nat
  | 0, _ => []
  | fuel + 1, n =>
    if n < 10 then [n + 48]
    else natDigitsGo fuel (n / 10) ++ [n % 10 + 48]

/-- Decimal digits (ASCII) of a natural number, most significant first:
the bytes of Rust `format!` for an unsigned integer. -/
def natDigits (n : Nat) : List Nat :=
  natDigitsGo (n + 1) n

/-- Decimal bytes of a signed integer: the bytes of Rust `format!` for an
`i64` (a `-` sign followed by the digits when negative). -/
def intDigits (i : Int) : List Nat :=
  if i < 0 then 45 :: natDigits (-i).toNat else natDigits i.toNat

mutual

/-- `Frame::encode` of frame.rs. -/
def Frame.encode : Frame → List Nat
  | .Simple content => 43 :: content ++ [CR, LF]
  | .Error content => 45 :: content ++ [CR, LF]
  | .Integer content => 58 :: intDigits content ++ [CR, LF]
  | .Bulk content => 36 :: natDigits content.length ++ [CR, LF] ++ content ++ [CR, LF]
  | .Boolean content => 35 :: (if content then [116] else [102]) ++ [CR, LF]
  | .Null => [95, CR, LF]
  | .Array frames => 42 :: natDigits frames.length ++ [CR, LF] ++ encodeFrames frames
  | .Map frames => 37 :: natDigits frames.length ++ [CR, LF] ++ encodeEntries frames

/-- The `for f in frames` loop of `Frame::encode` for `Array`. -/
def encodeFrames : List Frame → List Nat
  | [] => []
  | f :: fs => f.encode ++ encodeFrames fs

/-- The `for (k, v) in frames` loop of `Frame::encode` for `Map`. -/
def encodeEntries : List (Frame × Frame) → List Nat
  | [] => []
  | (k, v) :: es => k.encode ++ v.encode ++ encodeEntries es

end

/-- One step of decimal accumulation: `acc * 10 + digit`. -/
def digitsVal (l : List Nat) : Nat :=
  l.foldl (fun acc d => acc * 10 + (d - 48)) 0

/-- Whether every byte is an ASCII decimal digit. -/
def allDigits (l : List Nat) : Bool :=
  l.all (fun d => 48 ≤ d && d ≤ 57)

/-- Rust `str::parse` for an unsigned integer type: an optional leading `+`
followed by at least one digit, no other bytes, value within `[0, hi)`.
Used with `hi = 2 ^ 64` for the `usize` bulk length. -/
def parseUnsigned (hi : Nat) (l : List Nat) : Option Nat :=
  let digits := if l.headD 0 = 43 then l.tail else l
  if digits ≠ [] ∧ allDigits digits ∧ digitsVal digits < hi then
    some (digitsVal digits)
  else none

/-- Rust `str::parse` for a signed integer type: optional `+` or `-` sign,
at least one digit, value within `[-bound, bound)`.  Used with
`bound = 2 ^ 63` for `i64` and `bound = 2 ^ 31` for the `i32` the
array/map length is inferred to. -/
def parseSigned (bound : Nat) (l : List Nat) : Option Int :=
  if l.headD 0 = 45 then
    if l.tail ≠ [] ∧ allDigits l.tail ∧ digitsVal l.tail ≤ bound then
      some (-(digitsVal l.tail : Int))
    else none
  else
    let digits := if l.headD 0 = 43 then l.tail else l
    if digits ≠ [] ∧ allDigits digits ∧ digitsVal digits < bound then
      some (digitsVal digits : Int)
    else none

/-- Result of the string-reading helpers of frame.rs (`get_simple_string`,
`get_bulk_string`): the data bytes, an error, or a Rust panic. -/
inductive StrRes where
  | Ok (data : List Nat)
  | Err (e : FrameError)
  | Panicked
deriving DecidableEq

/-- The scan loop of `get_simple_string` (frame.rs lines 233..251): starting
at index `i`, running while `i < e`; returns the data end index and the new
cursor position of the first branch that fires.  `steps` counts the
remaining iterations (`e - i` at the call site), keeping the recursion
structural. -/
def scanCRLF (buf : List Nat) (e : Nat) : Nat → Nat → Option (Nat × Nat)
  | _, 0 => none
  | i, steps + 1 =>
    let current := buf.getD i 0
    if current = LF ∧ buf.getD (i - 1) 0 = CR then some (i, i + 1)
    else if current = CR ∧ i + 1 < e ∧ buf.getD (i + 1) 0 = LF then some (i, i + 2)
    else scanCRLF buf e (i + 1) steps

/-- `get_simple_string` of frame.rs.  Returns the result together with the
final cursor position. -/
def get_simple_string (buf : List Nat) (pos : Nat) : StrRes × Nat :=
  if buf.length - pos = 0 then (.Err .Incomplete, pos)
  else
    let start := pos + 1
    let e := buf.length - 1
    match scanCRLF buf e start (e - start) with
    | some (i, newPos) => (.Ok (byteSlice buf start i), newPos)
    | none => (.Err .Incomplete, pos)

/-- The size-line scan loop of `get_bulk_string` (frame.rs lines 269..280):
the first index `i` in `[start, e)` with `buf[i] = LF` and `buf[i-1] = CR`. -/
def scanLF (buf : List Nat) (e : Nat) : Nat → Nat → Option Nat
  | _, 0 => none
  | i, steps + 1 =>
    if buf.getD i 0 = LF ∧ buf.getD (i - 1) 0 = CR then some i
    else scanLF buf e (i + 1) steps

/-- `get_bulk_string` of frame.rs.  When the size-line loop never breaks,
`bulk_size` and `content_start_index` are still `0` and the Rust
`content_start_index + bulk_size - 1` underflows: modelled as the release
wrap-around `2 ^ 64 - 1`, after which the (wrapped) bounds check almost
always fails with `Incomplete`; if it does pass, the Rust
`&buf[content_start..=content_end]` byteSlice is out of range and panics. -/
def get_bulk_string (buf : List Nat) (pos : Nat) : StrRes × Nat :=
  if buf.length - pos = 0 then (.Err .Incomplete, pos)
  else
    let start := pos + 1
    let e := buf.length - 1
    match scanLF buf e start (e - start) with
    | some i =>
      match parseUnsigned (2 ^ 64) (byteSlice buf start (i - 1)) with
      | none => (.Err .IntFromUTF8, pos)
      | some bulk_size =>
        let content_start_index := i + 1
        let content_end_index := content_start_index + bulk_size - 1
        if content_end_index + 2 ≤ e ∧ buf.getD (content_end_index + 1) 0 = CR
            ∧ buf.getD (content_end_index + 2) 0 = LF then
          (.Ok (byteSlice buf content_start_index (content_end_index + 1)),
            content_end_index + 3)
        else (.Err .Incomplete, pos)
    | none =>
      let content_end_index := (0 + 0 + 2 ^ 64 - 1) % 2 ^ 64
      if (content_end_index + 2) % 2 ^ 64 ≤ e
          ∧ buf.getD ((content_end_index + 1) % 2 ^ 64) 0 = CR
          ∧ buf.getD ((content_end_index + 2) % 2 ^ 64) 0 = LF then
        (.Panicked, pos)
      else (.Err .Incomplete, pos)

example : get_simple_string [43, 79, 75, CR, LF] 0 = (.Err .Incomplete, 0) := by rfl

example : get_simple_string [43, 79, 75, CR, LF, 90] 0 = (.Ok [79, 75], 5) := by rfl

example : get_bulk_string [36, 53, CR, LF, 104, 101, 108, 108, 111, CR, LF] 0 =
    (.Ok [104, 101, 108, 108, 111], 11) := by rfl

/-- Lexicographic comparison of byte lists: Rust `String`/`str` `Ord`. -/
def natListCmp : List Nat → List Nat → Ordering
  | [], [] => .eq
  | [], _ :: _ => .lt
  | _ :: _, [] => .gt
  | a :: as_, b :: bs =>
    match compare a b with
    | .eq => natListCmp as_ bs
    | o => o

mutual

/-- `impl Ord for Frame` (frame.rs lines 27..41).  `none` is the
`panic!("Can't compare different Frame variants")` arm for two distinct
variants. -/
def frameCmp : Frame → Frame → Option Ordering
  | .Simple a, .Simple b => some (natListCmp a b)
  | .Error a, .Error b => some (natListCmp a b)
  | .Integer a, .Integer b => some (compare a b)
  | .Bulk a, .Bulk b => some (natListCmp a b)
  | .Array a, .Array b => frameListCmp a b
  | .Map a, .Map b => framePairsCmp a b
  | .Null, .Null => some .eq
  | .Boolean a, .Boolean b => some (compare a b)
  | _, _ => none

/-- `Vec<Frame>::cmp`: lexicographic, element comparisons may panic. -/
def frameListCmp : List Frame → List Frame → Option Ordering
  | [], [] => some .eq
  | [], _ :: _ => some .lt
  | _ :: _, [] => some .gt
  | a :: as_, b :: bs =>
    match frameCmp a b with
    | none => none
    | some .eq => frameListCmp as_ bs
    | some o => some o

/-- `BTreeMap<Frame, Frame>::cmp`: lexicographic over the entry sequence,
each entry compared as a `(key, value)` tuple. -/
def framePairsCmp : List (Frame × Frame) → List (Frame × Frame) → Option Ordering
  | [], [] => some .eq
  | [], _ :: _ => some .lt
  | _ :: _, [] => some .gt
  | (ka, va) :: as_, (kb, vb) :: bs =>
    match frameCmp ka kb with
    | none => none
    | some .eq =>
      match frameCmp va vb with
      | none => none
      | some .eq => framePairsCmp as_ bs
      | some o => some o
    | some o => some o

end

/-- `BTreeMap::insert` on the ascending entry list: search for the slot of
`k` comparing against the stored keys in order; replace the value if a key
compares equal (the stored key is kept).  `none` models the panic raised
when `frameCmp` hits two distinct variants. -/
def btreeInsert : List (Frame × Frame) → Frame → Frame → Option (List (Frame × Frame))
  | [], k, v => some [(k, v)]
  | (k0, v0) :: rest, k, v =>
    match frameCmp k k0 with
    | none => none
    | some .lt => some ((k, v) :: (k0, v0) :: rest)
    | some .eq => some ((k0, v) :: rest)
    | some .gt => (btreeInsert rest k v).map (fun r => (k0, v0) :: r)

/-- Result of `decode`: a frame, a `FrameError`, a Rust panic, or fuel
exhaustion of the model (unreachable at the fuel `decode` passes). -/
inductive DecodeRes where
  | Ok (f : Frame)
  | Err (e : FrameError)
  | Panicked
  | OutOfFuel

/-- `peek_byte` of frame.rs: `None` when the cursor has no remaining byte. -/
def peek_byte (buf : List Nat) (pos : Nat) : Option Nat :=
  if pos < buf.length then some (buf.getD pos 0) else none

/-- Lifts a `get_simple_string`/`get_bulk_string` result into a decoder
result through the continuation applied to the data bytes. -/
def liftStr (r : StrRes × Nat) (f : List Nat → DecodeRes) : DecodeRes × Nat :=
  match r with
  | (.Ok s, p) => (f s, p)
  | (.Err e, p) => (.Err e, p)
  | (.Panicked, p) => (.Panicked, p)

/-- The `for _ in 0..array_length` loop of `decode_array`: `dec` is the
recursive `decode` at one fuel less, `acc` the frames pushed so far
(`push_back` appends and always succeeds on an `Array`). -/
def decodeElems (dec : Nat → DecodeRes × Nat) :
    Nat → Nat → List Frame → DecodeRes × Nat
  | 0, p, acc => (.Ok (.Array acc), p)
  | k + 1, p, acc =>
    match dec p with
    | (.Ok f, p2) => decodeElems dec k p2 (acc ++ [f])
    | other => other

/-- `decode_array` of frame.rs: read the length line, parse it (the Rust
`parse()` is inferred to `i32`; a negative length makes the loop run zero
times), then decode that many elements. -/
def decode_array (dec : Nat → DecodeRes × Nat) (buf : List Nat) (pos : Nat) :
    DecodeRes × Nat :=
  match get_simple_string buf pos with
  | (.Ok s, p) =>
    match parseSigned (2 ^ 31) s with
    | none => (.Err .IntFromUTF8, p)
    | some n => decodeElems dec n.toNat p []
  | (.Err e, p) => (.Err e, p)
  | (.Panicked, p) => (.Panicked, p)

/-- The `for _ in 0..map_length` loop of `decode_map`: decode a key then a
value and `add_map_frame` them (a `BTreeMap::insert`, which panics when the
key compares against a stored key of a different variant). -/
def decodeEntries (dec : Nat → DecodeRes × Nat) :
    Nat → Nat → List (Frame × Frame) → DecodeRes × Nat
  | 0, p, acc => (.Ok (.Map acc), p)
  | k + 1, p, acc =>
    match dec p with
    | (.Ok key, p2) =>
      match dec p2 with
      | (.Ok value, p3) =>
        match btreeInsert acc key value with
        | some acc2 => decodeEntries dec k p3 acc2
        | none => (.Panicked, p3)
      | other => other
    | other => other

/-- `decode_map` of frame.rs. -/
def decode_map (dec : Nat → DecodeRes × Nat) (buf : List Nat) (pos : Nat) :
    DecodeRes × Nat :=
  match get_simple_string buf pos with
  | (.Ok s, p) =>
    match parseSigned (2 ^ 31) s with
    | none => (.Err .IntFromUTF8, p)
    | some n => decodeEntries dec n.toNat p []
  | (.Err e, p) => (.Err e, p)
  | (.Panicked, p) => (.Panicked, p)

/-- `decode` of frame.rs, with structural fuel bounding the recursion
depth into `Array`/`Map` elements. -/
def decodeAux : Nat → List Nat → Nat → DecodeRes × Nat
  | 0, _, pos => (.OutOfFuel, pos)
  | fuel + 1, buf, pos =>
    match peek_byte buf pos with
    | none => (.Err .Incomplete, pos)
    | some tag =>
      if tag = 43 then liftStr (get_simple_string buf pos) (fun s => .Ok (.Simple s))
      else if tag = 45 then liftStr (get_simple_string buf pos) (fun s => .Ok (.Error s))
      else if tag = 58 then
        liftStr (get_simple_string buf pos) (fun s =>
          match parseSigned (2 ^ 63) s with
          | some n => .Ok (.Integer n)
          | none => .Err .IntFromUTF8)
      else if tag = 36 then liftStr (get_bulk_string buf pos) (fun s => .Ok (.Bulk s))
      else if tag = 35 then
        liftStr (get_simple_string buf pos) (fun s =>
          if s = [116] then .Ok (.Boolean true)
          else if s = [102] then .Ok (.Boolean false)
          else .Err .InvalidFrame)
      else if tag = 95 then
        liftStr (get_simple_string buf pos) (fun s =>
          if s = [] then .Ok .Null else .Err .InvalidFrame)
      else if tag = 42 then decode_array (decodeAux fuel buf) buf pos
      else if tag = 37 then decode_map (decodeAux fuel buf) buf pos
      else (.Err .InvalidType, pos)

/-- Top-level `decode`: the fuel `buf.length + 1` exceeds any nesting depth
the Rust recursion can reach, because every nested `decode` call starts at
a strictly larger cursor position. -/
def decode (buf : List Nat) (pos : Nat) : DecodeRes × Nat :=
  decodeAux (buf.length + 1) buf pos

example : decode (Frame.Null.encode ++ [90]) 0 = (.Ok .Null, 3) := by rfl

example : decode (Frame.Null.encode) 0 = (.Err .Incomplete, 0) := by rfl

example :
    decode ((Frame.Array [.Integer 1, .Bulk [104, 105]]).encode ++ [90]) 0 =
      (.Ok (.Array [.Integer 1, .Bulk [104, 105]]), 16) := by rfl

example : decode [42, 45, 49, CR, LF, 90] 0 = (.Ok (.Array []), 5) := by rfl

example : decode [43, 97, CR, 98, CR, LF, 90] 0 =
    (.Ok (.Simple [97, CR, 98]), 6) := by rfl

/-- `usize::trailing_zeros` with structural fuel (64 for zero, as in Rust). -/
def trailingZerosGo : Nat → Nat → Nat
  | 0, _ => 64
  | fuel + 1, n =>
    if n = 0 then 64
    else if n % 2 = 1 then 0
    else 1 + trailingZerosGo fuel (n / 2)

/-- `usize::trailing_zeros`. -/
def trailing_zeros (n : Nat) : Nat :=
  trailingZerosGo (n + 1) n

/-- `usize::is_power_of_two` with structural fuel. -/
def isPow2Go : Nat → Nat → Bool
  | 0, _ => false
  | fuel + 1, n =>
    if n = 0 then false
    else if n = 1 then true
    else if n % 2 = 1 then false
    else isPow2Go fuel (n / 2)

/-- `usize::is_power_of_two`. -/
def is_power_of_two (n : Nat) : Bool :=
  isPow2Go (n + 1) n

/-- A `Bucket` of cmap.rs: its `FxHashMap<String, String>` storage modelled
as an association list (the unused `_eviction_state` heap is dropped). -/
abbrev Bucket := List (List Nat × List Nat)

/-- `FxHashMap::get`. -/
def bucketGet (b : Bucket) (key : List Nat) : Option (List Nat) :=
  (b.find? (fun p => p.1 == key)).map (fun p => p.2)

/-- `Bucket::add_entry_or_update`: `FxHashMap::insert`, returning the
previous value. -/
def add_entry_or_update (b : Bucket) (key value : List Nat) : Option (List Nat) × Bucket :=
  match bucketGet b key with
  | some old => (some old, b.map (fun p => if p.1 == key then (key, value) else p))
  | none => (none, b ++ [(key, value)])

/-- `Bucket::remove_entry`: 1 if the key was present, else 0. -/
def remove_entry (b : Bucket) (key : List Nat) : Nat × Bucket :=
  match bucketGet b key with
  | some _ => (1, b.filter (fun p => p.1 != key))
  | none => (0, b)

/-- The `CMap` of cmap.rs: the shard vector, the shard count and the atomic
aggregate `size`.  The key hash (`db::calculate_hash`, whose definition is
not part of the sources here) is a parameter of every operation. -/
structure CMap where
  shards : List Bucket
  shard_count : Nat
  size : Nat

/-- `CMap::get_shard_index`: `hash(key) & ((1 << shard_count.trailing_zeros()) - 1)`. -/
def get_shard_index (hash : List Nat → Nat) (shard_count : Nat) (key : List Nat) : Nat :=
  let key_hash := hash key
  let shard_bits := trailing_zeros shard_count
  let shard_mask := Nat.shiftLeft 1 shard_bits - 1
  Nat.land key_hash shard_mask

/-- `CMap::new`: `none` models the `io::Error` for a shard count that is
not a power of two. -/
def CMap.new (shard_count _bucket_size : Nat) : Option CMap :=
  if is_power_of_two shard_count then
    some { shards := List.replicate shard_count [], shard_count := shard_count, size := 0 }
  else none

/-- `CMap::set_kv`: insert into the key's shard; `fetch_add(1)` on the
aggregate size only when there was no previous value. -/
def CMap.set_kv (hash : List Nat → Nat) (m : CMap) (key value : List Nat) : CMap :=
  let index := get_shard_index hash m.shard_count key
  let b := m.shards.getD index []
  let previous_value := (add_entry_or_update b key value).1
  { m with
    shards := m.shards.set index (add_entry_or_update b key value).2,
    size := if previous_value.isNone then m.size + 1 else m.size }

/-- `CMap::get_value`. -/
def CMap.get_value (hash : List Nat → Nat) (m : CMap) (key : List Nat) : Option (List Nat) :=
  bucketGet (m.shards.getD (get_shard_index hash m.shard_count key) []) key

/-- `CMap::get_shard_key_mapping`, read off at one shard id: the input keys
belonging to that shard, deduplicated (the Rust code collects them into a
`HashSet`). -/
def get_shard_key_mapping (hash : List Nat → Nat) (shard_count : Nat)
    (keys : List (List Nat)) (shard_id : Nat) : List (List Nat) :=
  (keys.filter (fun k => get_shard_index hash shard_count k == shard_id)).dedup

/-- The `for key in keys` removal loop of `delete_shard_entries`. -/
def removeAll (b : Bucket) : List (List Nat) → Nat × Bucket
  | [] => (0, b)
  | k :: ks =>
    let r := remove_entry b k
    let rest := removeAll r.2 ks
    (r.1 + rest.1, rest.2)

/-- `CMap::delete_shard_entries`: remove the grouped keys from one shard
(`get_shard_by_index` returns `None` for an out-of-range id, skipping the
loop) and `fetch_sub` the count from the aggregate size. -/
def CMap.delete_shard_entries (m : CMap) (shard_id : Nat) (keys : List (List Nat)) :
    CMap × Nat :=
  if shard_id < m.shard_count then
    let r := removeAll (m.shards.getD shard_id []) keys
    ({ m with shards := m.shards.set shard_id r.2, size := m.size - r.1 }, r.1)
  else (m, 0)

/-- `CMap::del_entries`: group the keys by shard, delete shard by shard,
and record `(shard_id, count)` for the shards with a positive count.  The
Rust loop visits the occupied entries of a `HashMap` in arbitrary order;
the model visits every shard id in ascending order, which removes the same
keys (ids not in the mapping get an empty key set and are no-ops). -/
def CMap.del_entries (hash : List Nat → Nat) (m : CMap) (keys : List (List Nat)) :
    CMap × List (Nat × Nat) :=
  (List.range m.shard_count).foldl
    (fun acc shard_id =>
      let ks := get_shard_key_mapping hash m.shard_count keys shard_id
      let r := acc.1.delete_shard_entries shard_id ks
      (r.1, if r.2 > 0 then acc.2 ++ [(shard_id, r.2)] else acc.2))
    (m, [])

/-- Sum of the per-shard deletion counts (the loop of `State::delete_entries`). -/
def sumCounts (l : List (Nat × Nat)) : Nat :=
  (l.map (fun p => p.2)).sum

/-- The `State` of cache.rs.  `Instant` is a `Nat`; the tracking
`BTreeSet<(Instant, String)>` is its ascending element list; the
`cleanup_needed` condvar flag is the boolean it guards. -/
structure State where
  data : CMap
  capacity : Nat
  tracking : List (Nat × List Nat)
  auto_eviction_threshold : Nat
  cleanup_needed : Bool

/-- Byte-lexicographic strict order: Rust `String` `Ord` (byte order). -/
def byteStrLT : List Nat → List Nat → Bool
  | [], [] => false
  | [], _ :: _ => true
  | _ :: _, [] => false
  | a :: as_, b :: bs =>
    if a < b then true else if a = b then byteStrLT as_ bs else false

/-- The Rust `(Instant, String)` lexicographic order. -/
def instKeyLT (a b : Nat × List Nat) : Bool :=
  a.1 < b.1 || (a.1 == b.1 && byteStrLT a.2 b.2)

/-- `State::get_last_item_before_cutoff` loop over the ascending entries. -/
def lastBeforeGo (cutoff : Nat) (prev : Nat × List Nat) : List (Nat × List Nat) → Nat × List Nat
  | [] => prev
  | item :: rest =>
    if item.1 ≥ cutoff then prev else lastBeforeGo cutoff item rest

/-- `State::get_last_item_before_cutoff`: `cutoff` is the first
`Instant::now()` (the cut-off), `now2` the second one used to initialise
`prev_item` (monotonicity gives `cutoff ≤ now2`). -/
def get_last_item_before_cutoff (cutoff now2 : Nat) (tracking : List (Nat × List Nat)) :
    Nat × List Nat :=
  lastBeforeGo cutoff (now2, []) tracking

/-- `State::evict_expired_keys`.  `BTreeSet::split_off(&k)` keeps the
elements strictly below `k` and returns the elements at or above `k`; on
the sorted element list both halves are the corresponding filters.  The
Rust method returns `()`; the model also returns the key list handed to
`del_entries`, so the claims can speak about it. -/
def State.evict_expired_keys (hash : List Nat → Nat) (cutoff now2 : Nat) (s : State) :
    State × List (List Nat) :=
  let cut_off_item := get_last_item_before_cutoff cutoff now2 s.tracking
  let kept := s.tracking.filter (fun it => instKeyLT it cut_off_item)
  let expired_items := s.tracking.filter (fun it => !instKeyLT it cut_off_item)
  let keys := expired_items.map (fun it => it.2)
  ({ s with data := (s.data.del_entries hash keys).1, tracking := kept }, keys)

/-- `State::set_kv` of cache.rs: store the pair, then possibly raise the
cleanup flag.  The `ttl` argument is accepted and dropped (the expiration
bookkeeping in the source is commented out), and `tracking` is untouched. -/
def State.set_kv (hash : List Nat → Nat) (s : State) (key value : List Nat)
    (_ttl : Option Nat) : State :=
  let data2 := s.data.set_kv hash key value
  let current_size := data2.size
  if current_size ≥ s.capacity * s.auto_eviction_threshold / 100 then
    { s with data := data2, cleanup_needed := true }
  else { s with data := data2 }

/-- `State::get_value_by_key`. -/
def State.get_value_by_key (hash : List Nat → Nat) (s : State) (key : List Nat) :
    Option (List Nat) :=
  s.data.get_value hash key

/-- `State::delete_entries`: grouped delete, summing the per-shard counts. -/
def State.delete_entries (hash : List Nat → Nat) (s : State) (keys : List (List Nat)) :
    State × Nat :=
  let r := s.data.del_entries hash keys
  ({ s with data := r.1 }, sumCounts r.2)

/-- The `CommandError` variants reachable from `get_name`/`Ping::from`.
`MalformedPing` is the variant ping.rs names (the enum in error.rs has
drifted and spells it differently). -/
inductive CommandError where
  | NotCmdFrame
  | InvalidCmdFrame
  | MalformedPing
deriving DecidableEq

/-- ASCII upper-casing of a byte string: `str::to_uppercase` /
`to_ascii_uppercase` on the ASCII command names involved. -/
def to_uppercase (l : List Nat) : List Nat :=
  l.map (fun b => if 97 ≤ b ∧ b ≤ 122 then b - 32 else b)

/-- `get_name` of cmd/mod.rs: the upper-cased first `Bulk` element of an
`Array` frame. -/
def get_name : Frame → Except CommandError (List Nat)
  | .Array frames =>
    match frames with
    | [] => .error .InvalidCmdFrame
    | first :: _ =>
      match first with
      | .Bulk cmd_name => .ok (to_uppercase cmd_name)
      | _ => .error .InvalidCmdFrame
  | _ => .error .NotCmdFrame

/-- The `Ping` command of cmd/ping.rs. -/
structure Ping where
  message : List Nat
deriving DecidableEq

/-- The bytes of `"PING"`. -/
def pingName : List Nat := [80, 73, 78, 71]

/-- The bytes of `"PONG"`. -/
def pongBytes : List Nat := [80, 79, 78, 71]

/-- `Ping::from` (`from` is a Lean keyword): a one-element `PING` array
gets the message `"PONG"`; a second `Bulk` element becomes the message;
a second element of any other variant leaves the message empty. -/
def Ping.fromFrame (frame : Frame) : Except CommandError Ping :=
  match get_name frame with
  | .error e => .error e
  | .ok cmd_name =>
    match frame with
    | .Array content =>
      if to_uppercase cmd_name ≠ pingName ∨ content.length > 2 then
        .error .MalformedPing
      else if content.length = 1 then .ok { message := pongBytes }
      else
        match content.getD 1 .Null with
        | .Bulk value => .ok { message := value }
        | _ => .ok { message := [] }
    | _ => .error .NotCmdFrame

/-- `Ping::apply`: the reply frame written to the destination.  The branch
is on the message VALUE: a message equal to `"PONG"` is replied to with a
`Simple` frame, anything else with a `Bulk` frame. -/
def Ping.apply (p : Ping) : Frame :=
  if p.message = pongBytes then .Simple p.message else .Bulk p.message

/-- `applySets hash s ops` folds `State::set_kv` over a call sequence. -/
def applySets (hash : List Nat → Nat) : State → List (List Nat × List Nat × Option Nat) → State
  | s, [] => s
  | s, (k, v, ttl) :: ops => applySets hash (s.set_kv hash k v ttl) ops

/-- Total number of entries stored across all shards of a `CMap`. -/
def keyCount (m : CMap) : Nat :=
  (m.shards.map List.length).sum

/-- The reachable-state invariant of a `CMap`: the shard count is the power
of two checked by `CMap::new`, the shard vector has exactly that length,
the atomic `size` equals the number of stored entries, and each bucket's
keys are distinct (it models a hash map). -/
def CMapInv (m : CMap) : Prop :=
  (∃ j, m.shard_count = 2 ^ j) ∧ m.shards.length = m.shard_count ∧
    m.size = keyCount m ∧ ∀ b ∈ m.shards, (b.map Prod.fst).Nodup

/-- A store mutation: a `CMap::set_kv` or a `CMap::del_entries` call. -/
inductive CMapOp where
  | set (key value : List Nat) : CMapOp
  | del (keys : List (List Nat)) : CMapOp

/-- Run one store mutation. -/
def applyOp (hash : List Nat → Nat) (m : CMap) : CMapOp → CMap
  | .set k v => m.set_kv hash k v
  | .del ks => (m.del_entries hash ks).1

/-- Run a call sequence against the store. -/
def applyOps (hash : List Nat → Nat) (m : CMap) (ops : List CMapOp) : CMap :=
  ops.foldl (applyOp hash) m

/-- The loop body of `CMap::del_entries`, named so the fold can be reasoned
about; `CMap.del_entries` is definitionally a fold of this step. -/
def delStep (hash : List Nat → Nat) (S : Nat) (keys : List (List Nat))
    (acc : CMap × List (Nat × Nat)) (shard_id : Nat) : CMap × List (Nat × Nat) :=
  let ks := get_shard_key_mapping hash S keys shard_id
  let r := acc.1.delete_shard_entries shard_id ks
  (r.1, if r.2 > 0 then acc.2 ++ [(shard_id, r.2)] else acc.2)

/-- A concrete key hash for witnesses (`db::calculate_hash` lives outside
the sources embedded here, so the development is parametric in the hash). -/
def hashFn : List Nat → Nat := fun l => l.headD 0

/-- A fresh two-shard store, as built by `CMap::new 2 _`. -/
def cmapW0 : CMap :=
  { shards := List.replicate 2 [], shard_count := 2, size := 0 }

/-- A concrete call sequence: insert, replace, insert, grouped delete. -/
def opsW : List CMapOp :=
  [.set [0] [7], .set [0] [8], .set [1] [9], .del [[0], [2]]]

/-- A concrete two-shard store holding one key per shard. -/
def cmapW7 : CMap :=
  { shards := [[([0], [5])], [([1], [6])]], shard_count := 2, size := 2 }

/-- Whether a byte string is free of CR and LF. -/
def noCRLF (s : List Nat) : Bool :=
  s.all (fun b => b ≠ CR && b ≠ LF)
/-- The BTreeMap key invariant on the entry list: every later key compares
strictly greater than each earlier key (`frameCmp later earlier = gt`). -/
def sortedKeysGT : List (Frame × Frame) → Bool
  | [] => true
  | (k, _) :: rest =>
    rest.all (fun p => decide (frameCmp p.1 k = some Ordering.gt)) && sortedKeysGT rest

mutual

/-- The frames on which the decoder can reproduce `encode` output: CR/LF
free `Simple`/`Error` payloads (the encoder does not validate them),
`i64`-range integers, `usize`-range bulk lengths, `i32`-range
`Array`/`Map` lengths (the decoded length is parsed at those types), and
`Map` entry lists that really are ascending `BTreeMap` contents. -/
def wfB : Frame → Bool
  | .Simple s => noCRLF s
  | .Error s => noCRLF s
  | .Integer i => decide (-(2 ^ 63 : Int) ≤ i) && decide (i < 2 ^ 63)
  | .Bulk s => decide (s.length < 2 ^ 64)
  | .Null => true
  | .Boolean _ => true
  | .Array fs => decide (fs.length < 2 ^ 31) && wfList fs
  | .Map es => decide (es.length < 2 ^ 31) && wfPairs es && sortedKeysGT es

def wfList : List Frame → Bool
  | [] => true
  | f :: fs => wfB f && wfList fs

def wfPairs : List (Frame × Frame) → Bool
  | [] => true
  | (k, v) :: es => wfB k && wfB v && wfPairs es

end
/-- A one-shard store holding keys `a` and `b`. -/
def cmapAB : CMap :=
  { shards := [[([97], [49]), ([98], [50])]], shard_count := 1, size := 2 }

/-- A state whose tracking index holds `(1, a)` and `(5, b)`. -/
def stateAB : State :=
  { data := cmapAB, capacity := 16, tracking := [(1, [97]), (5, [98])],
    auto_eviction_threshold := 50, cleanup_needed := false }
/-- The map frame bytes `%2\r\n+a\r\n:1\r\n:2\r\n:3\r\nx`: two entries
whose keys decode to different variants (`Simple` then `Integer`). -/
def bufMapPanic : List Nat :=
  [37, 50, CR, LF, 43, 97, CR, LF, 58, 49, CR, LF, 58, 50, CR, LF,
   58, 51, CR, LF, 120]
/-- The bytes `+a\rb\r\nZ`: a simple line whose payload contains a bare CR
not followed by LF. -/
def bufBareCR : List Nat := [43, 97, CR, 98, CR, LF, 90]
/-- A nested concrete frame exercising every variant. -/
def frameEx : Frame :=
  .Array [.Integer (-42), .Bulk [104, CR, 105],
    .Map [(.Simple [97], .Null), (.Simple [98], .Boolean false)],
    .Error [111]]

/-- A one-shard state used by the concrete witnesses. -/
def stateEmpty : State :=
  { data := { shards := [[]], shard_count := 1, size := 0 },
    capacity := 4, tracking := [], auto_eviction_threshold := 50,
    cleanup_needed := false }

/-- Writing back the element already stored at an index is the identity. -/
theorem list_set_getD_self {α : Type} (l : List α) (i : Nat) (d : α) :
    l.set i (l[i]?.getD d) = l := by
  induction l generalizing i with
  | nil => rfl
  | cons a l ih =>
    cases i with
    | zero => simp
    | succ i => simpa [List.set] using ih i

/-- Deleting an empty key list leaves one shard untouched. -/
theorem delete_shard_entries_nil (m : CMap) (i : Nat) :
    m.delete_shard_entries i [] = (m, 0) := by
  unfold CMap.delete_shard_entries
  split
  · rcases m with ⟨shards, sc, size⟩
    simp [removeAll, list_set_getD_self]
  · rfl

/-- Deleting an empty key list leaves the whole store untouched. -/
theorem del_entries_nil (hash : List Nat → Nat) (m : CMap) :
    m.del_entries hash [] = (m, []) := by
  unfold CMap.del_entries
  have h : ∀ n, (List.range n).foldl
      (fun acc shard_id =>
        let ks := get_shard_key_mapping hash m.shard_count [] shard_id
        let r := acc.1.delete_shard_entries shard_id ks
        (r.1, if r.2 > 0 then acc.2 ++ [(shard_id, r.2)] else acc.2))
      (m, []) = (m, []) := by
    intro n
    induction n with
    | zero => rfl
    | succ n ih =>
      rw [List.range_succ, List.foldl_append, ih]
      simp [get_shard_key_mapping, delete_shard_entries_nil]
  exact h m.shard_count

/-- `State::set_kv` never touches the tracking index (the insertion is
commented out in the source). -/
theorem set_kv_tracking_eq (hash : List Nat → Nat) (s : State) (k v : List Nat)
    (ttl : Option Nat) : (State.set_kv hash s k v ttl).tracking = s.tracking := by
  rcases s with ⟨d, cap, tr, th, cl⟩
  unfold State.set_kv
  dsimp only
  split <;> rfl

/-- A sweep over an empty tracking index deletes nothing and changes
nothing. -/
theorem evict_noop_of_tracking_nil (hash : List Nat → Nat) (cutoff now2 : Nat)
    (s : State) (h : s.tracking = []) :
    s.evict_expired_keys hash cutoff now2 = (s, []) := by
  rcases s with ⟨d, cap, tr, th, cl⟩
  simp only at h
  subst h
  unfold State.evict_expired_keys
  simp [del_entries_nil]

/-- C9: `State::set_kv` drops its `ttl` argument without recording
anything: the tracking index is unchanged by every `set_kv` call, so from
an empty tracking index any sequence of `set_kv` calls leaves it empty and
a subsequent eviction sweep passes no keys to the store and removes
nothing. -/
theorem set_kv_drops_ttl_and_sweeps_are_noops (hash : List Nat → Nat) (s : State)
    (k v : List Nat) (ttl : Option Nat) (ops : List (List Nat × List Nat × Option Nat))
    (cutoff now2 : Nat) (h : s.tracking = []) :
    (State.set_kv hash s k v ttl).tracking = s.tracking
    ∧ (applySets hash s ops).tracking = []
    ∧ (applySets hash s ops).evict_expired_keys hash cutoff now2
        = (applySets hash s ops, []) := by
  have happ : ∀ (ops2 : List (List Nat × List Nat × Option Nat)) (s2 : State),
      s2.tracking = [] → (applySets hash s2 ops2).tracking = [] := by
    intro ops2
    induction ops2 with
    | nil => intro s2 h2; exact h2
    | cons op rest ih =>
      intro s2 h2
      rcases op with ⟨k2, v2, t2⟩
      exact ih _ ((set_kv_tracking_eq hash s2 k2 v2 t2).trans h2)
  exact ⟨set_kv_tracking_eq hash s k v ttl, happ ops s h,
    evict_noop_of_tracking_nil hash cutoff now2 _ (happ ops s h)⟩

/-- Witness for C9 at a concrete state, operation list and sweep times. -/
theorem set_kv_drops_ttl_witness :
    stateEmpty.tracking = []
    ∧ ((State.set_kv (fun _ => 0) stateEmpty [107] [118] (some 3)).tracking
        = stateEmpty.tracking
      ∧ (applySets (fun _ => 0) stateEmpty [([120], [49], some 5)]).tracking = []
      ∧ (applySets (fun _ => 0) stateEmpty
          [([120], [49], some 5)]).evict_expired_keys (fun _ => 0) 7 7
          = (applySets (fun _ => 0) stateEmpty [([120], [49], some 5)], [])) :=
  ⟨rfl, set_kv_drops_ttl_and_sweeps_are_noops (fun _ => 0) stateEmpty [107] [118]
    (some 3) [([120], [49], some 5)] 7 7 rfl⟩


/-- C2: with tracking index `[(1, a), (5, b)]` and a sweep at time 3, only
`(1, a)` is expired, so the claim requires the sweep to delete exactly
`a` and keep `(5, b)` in the index.  The code instead takes
`split_off(&(1, a))`, which returns the entries at or ABOVE the last
expired entry: the sweep passes BOTH keys to the grouped delete, removes
the unexpired `b` from the store, and empties the tracking index. -/
theorem evict_deletes_unexpired_key :
    (stateAB.evict_expired_keys (fun _ => 0) 3 3).2 = [[97], [98]]
    ∧ (stateAB.evict_expired_keys (fun _ => 0) 3 3).1.tracking = []
    ∧ (stateAB.evict_expired_keys (fun _ => 0) 3 3).1.data.get_value
        (fun _ => 0) [98] = none := by
  refine ⟨rfl, rfl, rfl⟩


/-- C4: `decode` is not total over its error algebra: on a `%` frame whose
second key is an `Integer` while the first is a `Simple`, the
`BTreeMap::insert` inside `decode_map` compares the two keys with
`Ord for Frame`, which panics on distinct variants. -/
theorem decode_map_mixed_keys_panics :
    (decode bufMapPanic 0).1 = DecodeRes.Panicked := rfl


/-- C5: the scanner of `get_simple_string` does not reject a bare CR (or a
bare LF) before the terminator — contradicting the function's own doc
comment — so `+a\rb\r\n` decodes to `Simple("a\rb")` instead of returning
`Malformed`. -/
theorem decode_accepts_bare_cr :
    decode bufBareCR 0 = (DecodeRes.Ok (Frame.Simple [97, CR, 98]), 6) := rfl

/-- C1 counterexample: when `encode(Null)` is the entire buffer, `decode`
returns `Incomplete` with the cursor still at 0, not the frame: the simple
line scanner requires a byte after the terminating CRLF. -/
theorem decode_encode_null_exact_fails :
    decode Frame.Null.encode 0 ≠ (DecodeRes.Ok Frame.Null, Frame.Null.encode.length) := by
  intro h
  have h1 : (decode Frame.Null.encode 0).1 = DecodeRes.Ok Frame.Null := by rw [h]
  have h2 : (decode Frame.Null.encode 0).1 = DecodeRes.Err FrameError.Incomplete := rfl
  rw [h2] at h1
  exact DecodeRes.noConfusion h1

/-- C3 counterexample: `*1\r\n:1` is a strict prefix of
`encode(Array [Integer 1])`; decoding it returns `Incomplete` but leaves
the cursor at 4 (past the array header), not at 0. -/
theorem decode_array_prefix_moves_cursor :
    [42, 49, CR, LF, 58, 49] = (Frame.Array [Frame.Integer 1]).encode.take 6
    ∧ 6 < (Frame.Array [Frame.Integer 1]).encode.length
    ∧ decode [42, 49, CR, LF, 58, 49] 0 = (DecodeRes.Err FrameError.Incomplete, 4)
    ∧ (4 : Nat) ≠ 0 :=
  ⟨rfl, by decide, rfl, by decide⟩

/-- C10 counterexample: on exactly the bytes `*-1\r\n` the decoder does
not return an empty `Array` consuming the header — the header line itself
needs a following byte, so the result is `Incomplete` at cursor 0. -/
theorem decode_neg_header_exact_incomplete :
    decode [42, 45, 49, CR, LF] 0 = (DecodeRes.Err FrameError.Incomplete, 0)
    ∧ decode [42, 45, 49, CR, LF] 0 ≠ (DecodeRes.Ok (Frame.Array []), 5) := by
  refine ⟨rfl, ?_⟩
  intro h
  have h1 : (decode [42, 45, 49, CR, LF] 0).1 = DecodeRes.Ok (Frame.Array []) := by rw [h]
  have h2 : (decode [42, 45, 49, CR, LF] 0).1 = DecodeRes.Err FrameError.Incomplete := rfl
  rw [h2] at h1
  exact DecodeRes.noConfusion h1

/-- C8 counterexample: `PING` with the explicit argument `PONG` parses to
the message `PONG`, whose reply is the `Simple` frame, not the `Bulk`
frame the claim requires for every argument. -/
theorem ping_pong_argument_not_bulk :
    Ping.fromFrame (Frame.Array [Frame.Bulk pingName, Frame.Bulk pongBytes])
      = Except.ok { message := pongBytes }
    ∧ Ping.apply { message := pongBytes } ≠ Frame.Bulk pongBytes := by
  refine ⟨rfl, ?_⟩
  intro h
  have h2 : Ping.apply { message := pongBytes } = Frame.Simple pongBytes := rfl
  rw [h2] at h
  exact Frame.noConfusion h

/-- C8 amended: a `PING` without argument replies `Simple("PONG")`; a
`PING` with a `Bulk` argument `m` replies `Bulk(m)` for every `m` other
than `"PONG"` (an argument equal to `"PONG"` is replied to with
`Simple("PONG")`, see the counterexample). -/
theorem ping_reply_shape (m : List Nat) (hm : m ≠ pongBytes) :
    Ping.fromFrame (Frame.Array [Frame.Bulk pingName])
      = Except.ok { message := pongBytes }
    ∧ Ping.apply { message := pongBytes } = Frame.Simple pongBytes
    ∧ Ping.fromFrame (Frame.Array [Frame.Bulk pingName, Frame.Bulk m])
      = Except.ok { message := m }
    ∧ Ping.apply { message := m } = Frame.Bulk m := by
  refine ⟨rfl, rfl, rfl, ?_⟩
  unfold Ping.apply
  rw [if_neg hm]

/-- Witness for the amended C8 at the concrete message `hi`. -/
theorem ping_reply_shape_witness :
    Ping.fromFrame (Frame.Array [Frame.Bulk pingName])
      = Except.ok { message := pongBytes }
    ∧ Ping.apply { message := pongBytes } = Frame.Simple pongBytes
    ∧ Ping.fromFrame (Frame.Array [Frame.Bulk pingName, Frame.Bulk [104, 105]])
      = Except.ok { message := [104, 105] }
    ∧ Ping.apply { message := [104, 105] } = Frame.Bulk [104, 105] :=
  ping_reply_shape [104, 105] (by decide)


/-- `natDigitsGo` does not depend on the fuel once the fuel exceeds the
argument. -/
theorem natDigitsGo_congr : ∀ (f1 : Nat) (f2 n : Nat), n < f1 → n < f2 →
    natDigitsGo f1 n = natDigitsGo f2 n := by
  intro f1
  induction f1 with
  | zero => intro f2 n h1 _; omega
  | succ f1 ih =>
    intro f2 n h1 h2
    cases f2 with
    | zero => omega
    | succ f2 =>
      by_cases hn : n < 10
      · simp [natDigitsGo, hn]
      · have hlt : n / 10 < n := Nat.div_lt_self (by omega) (by omega)
        simp only [natDigitsGo, hn, if_false]
        rw [ih f2 (n / 10) (by omega) (by omega)]

/-- The defining equation of `natDigits`. -/
theorem natDigits_step (n : Nat) :
    natDigits n = if n < 10 then [n + 48] else natDigits (n / 10) ++ [n % 10 + 48] := by
  by_cases hn : n < 10
  · simp [natDigits, natDigitsGo, hn]
  · have hlt : n / 10 < n := Nat.div_lt_self (by omega) (by omega)
    have h1 : natDigits n = natDigitsGo n (n / 10) ++ [n % 10 + 48] := by
      simp [natDigits, natDigitsGo, hn]
    rw [h1, natDigitsGo_congr n (n / 10 + 1) (n / 10) (by omega) (by omega), if_neg hn]
    rfl

/-- Every byte of `natDigits` is an ASCII digit. -/
theorem natDigits_mem (n : Nat) : ∀ d ∈ natDigits n, 48 ≤ d ∧ d ≤ 57 := by
  induction n using Nat.strong_induction_on with
  | _ n ih =>
    rw [natDigits_step]
    by_cases hn : n < 10
    · intro d hd
      simp [hn] at hd
      omega
    · have hlt : n / 10 < n := Nat.div_lt_self (by omega) (by omega)
      simp only [hn, if_false]
      intro d hd
      rcases List.mem_append.1 hd with h | h
      · exact ih (n / 10) hlt d h
      · simp at h
        have := Nat.mod_lt n (show 0 < 10 by omega)
        omega

/-- `natDigits` is never empty. -/
theorem natDigits_ne_nil (n : Nat) : natDigits n ≠ [] := by
  rw [natDigits_step]
  by_cases hn : n < 10 <;> simp [hn]

theorem natDigits_allDigits (n : Nat) : allDigits (natDigits n) = true := by
  simp only [allDigits, List.all_eq_true]
  intro d hd
  have := natDigits_mem n d hd
  simp only [Bool.and_eq_true, decide_eq_true_eq]
  omega

/-- Digit bytes contain no CR and no LF. -/
theorem natDigits_noCRLF (n : Nat) : noCRLF (natDigits n) = true := by
  simp only [noCRLF, List.all_eq_true]
  intro d hd
  have := natDigits_mem n d hd
  simp only [Bool.and_eq_true, bne_iff_ne, ne_eq, decide_eq_true_eq, CR, LF]
  constructor <;> omega

theorem digitsVal_append_single (l : List Nat) (d : Nat) :
    digitsVal (l ++ [d]) = digitsVal l * 10 + (d - 48) := by
  simp [digitsVal]

/-- Parsing back the decimal digits of `n` yields `n`. -/
theorem digitsVal_natDigits (n : Nat) : digitsVal (natDigits n) = n := by
  induction n using Nat.strong_induction_on with
  | _ n ih =>
    rw [natDigits_step]
    by_cases hn : n < 10
    · simp [hn, digitsVal]
    · have hlt : n / 10 < n := Nat.div_lt_self (by omega) (by omega)
      simp only [hn, if_false]
      rw [digitsVal_append_single, ih (n / 10) hlt]
      omega

/-- `parseUnsigned` round-trips `natDigits`. -/
theorem parseUnsigned_natDigits (hi n : Nat) (h : n < hi) :
    parseUnsigned hi (natDigits n) = some n := by
  have hne := natDigits_ne_nil n
  have hall := natDigits_allDigits n
  have hhead : (natDigits n).headD 0 ≠ 43 := by
    rcases hd : natDigits n with _ | ⟨d, rest⟩
    · exact absurd hd hne
    · have := natDigits_mem n d (by rw [hd]; exact List.mem_cons_self d rest)
      simp only [List.headD_cons]
      omega
  simp only [parseUnsigned]
  rw [if_neg hhead,
    if_pos (show natDigits n ≠ [] ∧ allDigits (natDigits n) = true
        ∧ digitsVal (natDigits n) < hi from
      ⟨hne, hall, by rw [digitsVal_natDigits]; exact h⟩),
    digitsVal_natDigits]

/-- `parseSigned` round-trips `intDigits` within the bound. -/
theorem parseSigned_intDigits (bound : Nat) (i : Int)
    (hlo : -(bound : Int) ≤ i) (hhi : i < bound) :
    parseSigned bound (intDigits i) = some i := by
  by_cases hneg : i < 0
  · have henc : intDigits i = 45 :: natDigits (-i).toNat := by
      simp [intDigits, hneg]
    rw [henc]
    simp only [parseSigned, List.headD_cons, List.tail_cons, if_pos rfl]
    have hle : digitsVal (natDigits (-i).toNat) ≤ bound := by
      rw [digitsVal_natDigits]; omega
    rw [if_pos (show natDigits (-i).toNat ≠ [] ∧ allDigits (natDigits (-i).toNat) = true
        ∧ digitsVal (natDigits (-i).toNat) ≤ bound from
      ⟨natDigits_ne_nil _, natDigits_allDigits _, hle⟩)]
    have hdv := digitsVal_natDigits (-i).toNat
    rw [hdv, Int.toNat_of_nonneg (show (0 : Int) ≤ -i by omega), neg_neg]
    simp
  · have henc : intDigits i = natDigits i.toNat := by
      simp [intDigits, hneg]
    rw [henc]
    have hne := natDigits_ne_nil i.toNat
    have hhead : ∀ c, (natDigits i.toNat).headD 0 = c → 48 ≤ c ∧ c ≤ 57 := by
      intro c hc
      rcases hd : natDigits i.toNat with _ | ⟨d, rest⟩
      · exact absurd hd hne
      · rw [hd] at hc
        simp only [List.headD_cons] at hc
        subst hc
        exact natDigits_mem _ d (by rw [hd]; exact List.mem_cons_self d rest)
    have h45 : ¬ (natDigits i.toNat).headD 0 = 45 := by
      intro hc; have := hhead _ hc; omega
    have h43 : ¬ (natDigits i.toNat).headD 0 = 43 := by
      intro hc; have := hhead _ hc; omega
    simp only [parseSigned]
    rw [if_neg h45, if_neg h43]
    have hlt : digitsVal (natDigits i.toNat) < bound := by
      rw [digitsVal_natDigits]; omega
    rw [if_pos (show natDigits i.toNat ≠ [] ∧ allDigits (natDigits i.toNat) = true
        ∧ digitsVal (natDigits i.toNat) < bound from
      ⟨hne, natDigits_allDigits _, hlt⟩)]
    have hdv := digitsVal_natDigits i.toNat
    rw [hdv, Int.toNat_of_nonneg (show (0 : Int) ≤ i by omega)]

theorem getD_append_size (A B : List Nat) (j : Nat) :
    (A ++ B).getD (A.length + j) 0 = B.getD j 0 := by
  rw [List.getD_append_right A B 0 (A.length + j) (by omega)]
  congr 1
  omega

theorem getD_append_small (A B : List Nat) (j : Nat) (h : j < A.length) :
    (A ++ B).getD j 0 = A.getD j 0 :=
  List.getD_append A B 0 j h

theorem noCRLF_getD (s : List Nat) (j : Nat) (h : j < s.length)
    (hs : noCRLF s = true) : s.getD j 0 ≠ CR ∧ s.getD j 0 ≠ LF := by
  have hmem : s.getD j 0 ∈ s := by
    rw [List.getD_eq_getElem s 0 h]
    exact List.getElem_mem h
  simp only [noCRLF, List.all_eq_true] at hs
  have := hs _ hmem
  simp only [Bool.and_eq_true, bne_iff_ne, ne_eq, decide_eq_true_eq] at this
  exact this

theorem cons_append_decomp {α : Type} (P : List α) (c : α) (Y : List α) :
    P ++ c :: Y = (P ++ [c]) ++ Y := by simp

theorem byteSlice_exact (A X R : List Nat) :
    byteSlice (A ++ X ++ R) A.length (A.length + X.length) = X := by
  unfold byteSlice
  rw [List.append_assoc, show A.length + X.length = (A ++ X).length by simp,
    ← List.append_assoc, List.take_left]
  exact List.drop_left A X

theorem scanCRLF_found (buf : List Nat) (e : Nat) : ∀ (len a : Nat),
    (∀ j, j < len → buf.getD (a + j) 0 ≠ CR ∧ buf.getD (a + j) 0 ≠ LF) →
    buf.getD (a + len) 0 = CR → buf.getD (a + len + 1) 0 = LF →
    a + len + 1 < e →
    scanCRLF buf e a (e - a) = some (a + len, a + len + 2) := by
  intro len
  induction len with
  | zero =>
    intro a _ hcr hlf hlt
    obtain ⟨k, hk⟩ : ∃ k, e - a = k + 1 := ⟨e - a - 1, by omega⟩
    rw [hk]
    simp only [scanCRLF]
    rw [if_neg (by simp only [Nat.add_zero] at hcr; rw [hcr]; simp [CR, LF])]
    rw [if_pos ⟨by simpa using hcr, by omega, by simpa using hlf⟩]
    simp
  | succ len ih =>
    intro a hclean hcr hlf hlt
    obtain ⟨k, hk⟩ : ∃ k, e - a = k + 1 := ⟨e - a - 1, by omega⟩
    rw [hk]
    simp only [scanCRLF]
    have h0 := hclean 0 (by omega)
    simp only [Nat.add_zero] at h0
    rw [if_neg (by intro hc; exact h0.2 hc.1)]
    rw [if_neg (by intro hc; exact h0.1 hc.1)]
    have hk2 : k = e - (a + 1) := by omega
    rw [hk2]
    have hres := ih (a + 1)
      (fun j hj => by
        have := hclean (j + 1) (by omega)
        constructor
        · intro hx; exact this.1 (by rw [← hx]; congr 1; omega)
        · intro hx; exact this.2 (by rw [← hx]; congr 1; omega))
      (by rw [show a + 1 + len = a + (len + 1) by omega]; exact hcr)
      (by rw [show a + 1 + len + 1 = a + (len + 1) + 1 by omega]; exact hlf)
      (by omega)
    rw [hres]
    congr 2 <;> omega

theorem scanCRLF_none (buf : List Nat) (e : Nat) : ∀ (steps a : Nat),
    (∀ i, a ≤ i → i < a + steps →
      ¬(buf.getD i 0 = LF ∧ buf.getD (i - 1) 0 = CR)
      ∧ ¬(buf.getD i 0 = CR ∧ i + 1 < e ∧ buf.getD (i + 1) 0 = LF)) →
    scanCRLF buf e a steps = none := by
  intro steps
  induction steps with
  | zero => intro a _; rfl
  | succ steps ih =>
    intro a h
    have h0 := h a (by omega) (by omega)
    simp only [scanCRLF]
    rw [if_neg h0.1, if_neg h0.2]
    exact ih (a + 1) (fun i h1 h2 => h i (by omega) (by omega))

theorem scanLF_found (buf : List Nat) (e : Nat) : ∀ (len a : Nat),
    (∀ j, j < len → ¬(buf.getD (a + j) 0 = LF ∧ buf.getD (a + j - 1) 0 = CR)) →
    buf.getD (a + len) 0 = LF → buf.getD (a + len - 1) 0 = CR →
    a + len < e →
    scanLF buf e a (e - a) = some (a + len) := by
  intro len
  induction len with
  | zero =>
    intro a _ hlf hcr hlt
    obtain ⟨k, hk⟩ : ∃ k, e - a = k + 1 := ⟨e - a - 1, by omega⟩
    rw [hk]
    simp only [scanLF]
    rw [if_pos ⟨by simpa using hlf, by simpa using hcr⟩]
    simp
  | succ len ih =>
    intro a hclean hlf hcr hlt
    obtain ⟨k, hk⟩ : ∃ k, e - a = k + 1 := ⟨e - a - 1, by omega⟩
    rw [hk]
    simp only [scanLF]
    rw [if_neg (by simpa using hclean 0 (by omega))]
    have hk2 : k = e - (a + 1) := by omega
    rw [hk2]
    have hres := ih (a + 1)
      (fun j hj => by
        have := hclean (j + 1) (by omega)
        intro hx
        exact this ⟨by rw [← hx.1]; congr 1; omega, by rw [← hx.2]; congr 1; omega⟩)
      (by rw [show a + 1 + len = a + (len + 1) by omega]; exact hlf)
      (by rw [show a + 1 + len - 1 = a + (len + 1) - 1 by omega]; exact hcr)
      (by omega)
    rw [hres]
    congr 1
    omega

theorem scanLF_none (buf : List Nat) (e : Nat) : ∀ (steps a : Nat),
    (∀ i, a ≤ i → i < a + steps → ¬(buf.getD i 0 = LF ∧ buf.getD (i - 1) 0 = CR)) →
    scanLF buf e a steps = none := by
  intro steps
  induction steps with
  | zero => intro a _; rfl
  | succ steps ih =>
    intro a h
    simp only [scanLF]
    rw [if_neg (h a (by omega) (by omega))]
    exact ih (a + 1) (fun i h1 h2 => h i (by omega) (by omega))

/-- `get_simple_string` on a complete simple line followed by at least one
byte: returns the CRLF-free payload and advances past the CRLF. -/
theorem gs_ok (P : List Nat) (c : Nat) (s t : List Nat)
    (hs : noCRLF s = true) (ht : t ≠ []) :
    get_simple_string (P ++ (c :: (s ++ [CR, LF])) ++ t) P.length
      = (.Ok s, P.length + s.length + 3) := by
  have htpos : 0 < t.length := List.length_pos.mpr ht
  have hlenB : (P ++ (c :: (s ++ [CR, LF])) ++ t).length
      = P.length + s.length + t.length + 3 := by
    simp
    omega
  have hgetS : ∀ j, j < s.length →
      (P ++ (c :: (s ++ [CR, LF])) ++ t).getD (P.length + 1 + j) 0 = s.getD j 0 := by
    intro j hj
    have hsplit : P ++ (c :: (s ++ [CR, LF])) ++ t
        = (P ++ [c]) ++ (s ++ ([CR] ++ ([LF] ++ t))) := by simp
    rw [hsplit, show P.length + 1 + j = (P ++ [c]).length + j by simp,
      getD_append_size, getD_append_small _ _ j hj]
  have hgetCR : (P ++ (c :: (s ++ [CR, LF])) ++ t).getD (P.length + 1 + s.length) 0
      = CR := by
    have hsplit : P ++ (c :: (s ++ [CR, LF])) ++ t
        = ((P ++ [c]) ++ s) ++ ([CR] ++ ([LF] ++ t)) := by simp
    rw [hsplit, show P.length + 1 + s.length = ((P ++ [c]) ++ s).length + 0 by
      simp; omega, getD_append_size]
    rfl
  have hgetLF : (P ++ (c :: (s ++ [CR, LF])) ++ t).getD (P.length + 1 + s.length + 1) 0
      = LF := by
    have hsplit : P ++ (c :: (s ++ [CR, LF])) ++ t
        = (((P ++ [c]) ++ s) ++ [CR]) ++ ([LF] ++ t) := by simp
    rw [hsplit, show P.length + 1 + s.length + 1 = (((P ++ [c]) ++ s) ++ [CR]).length + 0 by
      simp; omega, getD_append_size]
    rfl
  have hscan := scanCRLF_found (P ++ (c :: (s ++ [CR, LF])) ++ t)
    ((P ++ (c :: (s ++ [CR, LF])) ++ t).length - 1) s.length (P.length + 1)
    (fun j hj => by rw [hgetS j hj]; exact noCRLF_getD s j hj hs)
    hgetCR hgetLF (by rw [hlenB]; omega)
  unfold get_simple_string
  rw [if_neg (by rw [hlenB]; omega)]
  simp only
  rw [hscan]
  have hslice : byteSlice (P ++ (c :: (s ++ [CR, LF])) ++ t) (P.length + 1)
      (P.length + 1 + s.length) = s := by
    have hsplit : P ++ (c :: (s ++ [CR, LF])) ++ t
        = (P ++ [c]) ++ s ++ ([CR, LF] ++ t) := by simp
    have := byteSlice_exact (P ++ [c]) s ([CR, LF] ++ t)
    rw [hsplit]
    simpa using this
  simp only [hslice, Prod.mk.injEq]
  exact ⟨trivial, by omega⟩

/-- `get_simple_string` when the bytes from the position to the end of the
buffer have no CR and no LF before their final byte: `Incomplete`, cursor
unmoved. -/
theorem gs_incomplete (P : List Nat) (c : Nat) (r : List Nat)
    (hclean : ∀ j, j + 1 < r.length → r.getD j 0 ≠ CR ∧ r.getD j 0 ≠ LF) :
    get_simple_string (P ++ c :: r) P.length = (.Err .Incomplete, P.length) := by
  have hlenB : (P ++ c :: r).length = P.length + 1 + r.length := by simp; omega
  have hget : ∀ j, (P ++ c :: r).getD (P.length + 1 + j) 0 = r.getD j 0 := by
    intro j
    rw [cons_append_decomp, show P.length + 1 + j = (P ++ [c]).length + j by simp,
      getD_append_size]
  have hscan := scanCRLF_none (P ++ c :: r) ((P ++ c :: r).length - 1)
    ((P ++ c :: r).length - 1 - (P.length + 1)) (P.length + 1)
    (by
      intro i h1 h2
      rw [hlenB] at h2
      obtain ⟨j, rfl⟩ : ∃ j, i = P.length + 1 + j := ⟨i - P.length - 1, by omega⟩
      have hj : j + 1 < r.length := by omega
      have := hclean j hj
      rw [hget j]
      constructor
      · intro hx; exact this.2 hx.1
      · intro hx; exact this.1 hx.1)
  unfold get_simple_string
  rw [if_neg (by rw [hlenB]; omega)]
  simp only
  rw [hscan]

/-- `get_simple_string` on a line whose CRLF ends the buffer exactly:
`Incomplete`, because the final branch demands a byte after the LF. -/
theorem gs_incomplete_lineEnd (P : List Nat) (c : Nat) (x : List Nat)
    (hx : noCRLF x = true) :
    get_simple_string (P ++ c :: (x ++ [CR, LF])) P.length
      = (.Err .Incomplete, P.length) := by
  have hlenB : (P ++ c :: (x ++ [CR, LF])).length = P.length + x.length + 3 := by
    simp
    omega
  have hget : ∀ j, (P ++ c :: (x ++ [CR, LF])).getD (P.length + 1 + j) 0
      = (x ++ [CR, LF]).getD j 0 := by
    intro j
    rw [cons_append_decomp, show P.length + 1 + j = (P ++ [c]).length + j by simp,
      getD_append_size]
  have hscan := scanCRLF_none (P ++ c :: (x ++ [CR, LF]))
    ((P ++ c :: (x ++ [CR, LF])).length - 1) (x.length + 1) (P.length + 1)
    (by
      intro i h1 h2
      obtain ⟨j, rfl⟩ : ∃ j, i = P.length + 1 + j := ⟨i - P.length - 1, by omega⟩
      have hj : j ≤ x.length := by omega
      rw [hget j]
      by_cases hjx : j < x.length
      · have hcl := noCRLF_getD x j hjx hx
        rw [getD_append_small _ _ j hjx]
        constructor
        · intro hy; exact hcl.2 hy.1
        · intro hy; exact hcl.1 hy.1
      · have hjeq : j = x.length := by omega
        subst hjeq
        rw [show x.length = x.length + 0 by omega, getD_append_size]
        constructor
        · intro hy
          have : CR = LF := by simpa using hy.1
          simp [CR, LF] at this
        · intro hy
          rw [hlenB] at hy
          omega)
  unfold get_simple_string
  rw [if_neg (by rw [hlenB]; omega)]
  simp only
  rw [show (P ++ c :: (x ++ [CR, LF])).length - 1 - (P.length + 1) = x.length + 1 from by
    rw [hlenB]; omega, hscan]

/-- `get_bulk_string` on a complete bulk frame body (`$` length line,
payload, closing CRLF): succeeds with or without trailing bytes. -/
theorem gb_ok (P s t : List Nat) (hlen : s.length < 2 ^ 64) :
    get_bulk_string
      (P ++ (36 :: (natDigits s.length ++ [CR, LF] ++ s ++ [CR, LF])) ++ t) P.length
      = (.Ok s, P.length + (natDigits s.length).length + s.length + 5) := by
  set d := natDigits s.length with hd
  have hlenB : (P ++ (36 :: (d ++ [CR, LF] ++ s ++ [CR, LF])) ++ t).length
      = P.length + d.length + s.length + t.length + 5 := by
    simp
    omega
  have hgetDig : ∀ j, j < d.length →
      (P ++ (36 :: (d ++ [CR, LF] ++ s ++ [CR, LF])) ++ t).getD (P.length + 1 + j) 0
        = d.getD j 0 := by
    intro j hj
    have hsplit : P ++ (36 :: (d ++ [CR, LF] ++ s ++ [CR, LF])) ++ t
        = (P ++ [36]) ++ (d ++ ([CR] ++ ([LF] ++ (s ++ [CR, LF] ++ t)))) := by simp
    rw [hsplit, show P.length + 1 + j = (P ++ [36]).length + j by simp,
      getD_append_size, getD_append_small _ _ j hj]
  have hgetCR1 : (P ++ (36 :: (d ++ [CR, LF] ++ s ++ [CR, LF])) ++ t).getD
      (P.length + 1 + d.length) 0 = CR := by
    have hsplit : P ++ (36 :: (d ++ [CR, LF] ++ s ++ [CR, LF])) ++ t
        = ((P ++ [36]) ++ d) ++ ([CR] ++ ([LF] ++ (s ++ [CR, LF] ++ t))) := by simp
    rw [hsplit, show P.length + 1 + d.length = ((P ++ [36]) ++ d).length + 0 by
      simp; omega, getD_append_size]
    rfl
  have hgetLF1 : (P ++ (36 :: (d ++ [CR, LF] ++ s ++ [CR, LF])) ++ t).getD
      (P.length + 1 + d.length + 1) 0 = LF := by
    have hsplit : P ++ (36 :: (d ++ [CR, LF] ++ s ++ [CR, LF])) ++ t
        = (((P ++ [36]) ++ d) ++ [CR]) ++ ([LF] ++ (s ++ [CR, LF] ++ t)) := by simp
    rw [hsplit, show P.length + 1 + d.length + 1 = (((P ++ [36]) ++ d) ++ [CR]).length + 0 by
      simp; omega, getD_append_size]
    rfl
  have hgetCR2 : (P ++ (36 :: (d ++ [CR, LF] ++ s ++ [CR, LF])) ++ t).getD
      (P.length + d.length + 3 + s.length) 0 = CR := by
    have hsplit : P ++ (36 :: (d ++ [CR, LF] ++ s ++ [CR, LF])) ++ t
        = ((P ++ [36] ++ d ++ [CR, LF]) ++ s) ++ ([CR] ++ ([LF] ++ t)) := by simp
    rw [hsplit, show P.length + d.length + 3 + s.length
      = ((P ++ [36] ++ d ++ [CR, LF]) ++ s).length + 0 by simp; omega, getD_append_size]
    rfl
  have hgetLF2 : (P ++ (36 :: (d ++ [CR, LF] ++ s ++ [CR, LF])) ++ t).getD
      (P.length + d.length + 3 + s.length + 1) 0 = LF := by
    have hsplit : P ++ (36 :: (d ++ [CR, LF] ++ s ++ [CR, LF])) ++ t
        = ((P ++ [36] ++ d ++ [CR, LF]) ++ s ++ [CR]) ++ ([LF] ++ t) := by simp
    rw [hsplit, show P.length + d.length + 3 + s.length + 1
      = ((P ++ [36] ++ d ++ [CR, LF]) ++ s ++ [CR]).length + 0 by simp; omega,
      getD_append_size]
    rfl
  have hscan := scanLF_found (P ++ (36 :: (d ++ [CR, LF] ++ s ++ [CR, LF])) ++ t)
    ((P ++ (36 :: (d ++ [CR, LF] ++ s ++ [CR, LF])) ++ t).length - 1)
    (d.length + 1) (P.length + 1)
    (by
      intro j hj
      intro hcontra
      by_cases hjd : j < d.length
      · have := (noCRLF_getD d j hjd (hd ▸ natDigits_noCRLF s.length)).2
        rw [hgetDig j hjd] at hcontra
        exact this hcontra.1
      · have hjeq : j = d.length := by omega
        subst hjeq
        rw [hgetCR1] at hcontra
        have : CR = LF := hcontra.1
        simp [CR, LF] at this)
    (by rw [show P.length + 1 + (d.length + 1) = P.length + 1 + d.length + 1 by omega,
        hgetLF1])
    (by rw [show P.length + 1 + (d.length + 1) - 1 = P.length + 1 + d.length by omega,
        hgetCR1])
    (by rw [hlenB]; omega)
  have hslice1 : byteSlice (P ++ (36 :: (d ++ [CR, LF] ++ s ++ [CR, LF])) ++ t)
      (P.length + 1) (P.length + 1 + (d.length + 1) - 1) = d := by
    have hsplit : P ++ (36 :: (d ++ [CR, LF] ++ s ++ [CR, LF])) ++ t
        = (P ++ [36]) ++ d ++ ([CR, LF] ++ s ++ [CR, LF] ++ t) := by simp
    have := byteSlice_exact (P ++ [36]) d ([CR, LF] ++ s ++ [CR, LF] ++ t)
    rw [hsplit, show P.length + 1 + (d.length + 1) - 1 = (P ++ [36]).length + d.length by
      simp only [List.length_append, List.length_cons, List.length_nil]; omega,
      show P.length + 1 = (P ++ [36]).length by simp]
    exact this
  have hslice2 : byteSlice (P ++ (36 :: (d ++ [CR, LF] ++ s ++ [CR, LF])) ++ t)
      (P.length + 1 + (d.length + 1) + 1)
      (P.length + 1 + (d.length + 1) + 1 + s.length - 1 + 1) = s := by
    have hsplit : P ++ (36 :: (d ++ [CR, LF] ++ s ++ [CR, LF])) ++ t
        = (P ++ [36] ++ d ++ [CR, LF]) ++ s ++ ([CR, LF] ++ t) := by simp
    have hth := byteSlice_exact (P ++ [36] ++ d ++ [CR, LF]) s ([CR, LF] ++ t)
    have harith2 : P.length + 1 + (d.length + 1) + 1 + s.length - 1 + 1
        = (P ++ [36] ++ d ++ [CR, LF]).length + s.length := by
      simp only [List.length_append, List.length_cons, List.length_nil]
      omega
    have harith1 : P.length + 1 + (d.length + 1) + 1
        = (P ++ [36] ++ d ++ [CR, LF]).length := by
      simp only [List.length_append, List.length_cons, List.length_nil]
      omega
    rw [hsplit, harith2, harith1]
    exact hth
  unfold get_bulk_string
  rw [if_neg (by rw [hlenB]; omega)]
  simp only [hscan, hslice1]
  have hparse : parseUnsigned (2 ^ 64) d = some s.length := by
    rw [hd]
    exact parseUnsigned_natDigits (2 ^ 64) s.length hlen
  simp only [hparse]
  rw [if_pos ?hcond]
  case hcond =>
    refine ⟨by rw [hlenB]; omega, ?_, ?_⟩
    · rw [show P.length + 1 + (d.length + 1) + 1 + s.length - 1 + 1
          = P.length + d.length + 3 + s.length from by omega]
      exact hgetCR2
    · rw [show P.length + 1 + (d.length + 1) + 1 + s.length - 1 + 2
          = P.length + d.length + 3 + s.length + 1 from by omega]
      exact hgetLF2
  rw [hslice2]
  simp only [Prod.mk.injEq]
  exact ⟨trivial, by omega⟩

/-- `get_bulk_string` when no byte before the buffer end completes a CRLF
for the length line and the buffer does not begin with CR: the size loop
never breaks, the wrapped bounds check fails, `Incomplete`. -/
theorem gb_incomplete_noLF (P : List Nat) (r : List Nat)
    (hnoLF : ∀ j, j + 1 < r.length → r.getD j 0 ≠ LF)
    (h0 : (P ++ 36 :: r).getD 0 0 ≠ CR) :
    get_bulk_string (P ++ 36 :: r) P.length = (.Err .Incomplete, P.length) := by
  have hlenB : (P ++ 36 :: r).length = P.length + 1 + r.length := by simp; omega
  have hget : ∀ j, (P ++ 36 :: r).getD (P.length + 1 + j) 0 = r.getD j 0 := by
    intro j
    rw [cons_append_decomp, show P.length + 1 + j = (P ++ [36]).length + j by simp,
      getD_append_size]
  have hscan := scanLF_none (P ++ 36 :: r) ((P ++ 36 :: r).length - 1)
    ((P ++ 36 :: r).length - 1 - (P.length + 1)) (P.length + 1)
    (by
      intro i h1 h2
      rw [hlenB] at h2
      obtain ⟨j, rfl⟩ : ∃ j, i = P.length + 1 + j := ⟨i - P.length - 1, by omega⟩
      have hj : j + 1 < r.length := by omega
      rw [hget j]
      intro hx
      exact hnoLF j hj hx.1)
  unfold get_bulk_string
  rw [if_neg (by rw [hlenB]; omega)]
  simp only [hscan]
  rw [if_neg ?hneg]
  case hneg =>
    intro hx
    have h1 := hx.2.1
    rw [show ((0 + 0 + 2 ^ 64 - 1) % 2 ^ 64 + 1) % 2 ^ 64 = 0 from by norm_num] at h1
    exact h0 h1

/-- `get_bulk_string` when the length line is complete but fewer than
`n + 2` bytes follow it: the closing-CRLF bounds check fails, `Incomplete`. -/
theorem gb_incomplete_short (P s1 : List Nat) (n : Nat) (hn : n < 2 ^ 64)
    (h1 : s1 ≠ []) (h2 : s1.length ≤ n + 1) :
    get_bulk_string (P ++ 36 :: (natDigits n ++ [CR, LF] ++ s1)) P.length
      = (.Err .Incomplete, P.length) := by
  set d := natDigits n with hd
  have hs1pos : 0 < s1.length := List.length_pos.mpr h1
  have hlenB : (P ++ 36 :: (d ++ [CR, LF] ++ s1)).length
      = P.length + d.length + s1.length + 3 := by
    simp only [List.length_append, List.length_cons, List.length_nil]
    omega
  have hgetDig : ∀ j, j < d.length →
      (P ++ 36 :: (d ++ [CR, LF] ++ s1)).getD (P.length + 1 + j) 0 = d.getD j 0 := by
    intro j hj
    have hsplit : P ++ 36 :: (d ++ [CR, LF] ++ s1)
        = (P ++ [36]) ++ (d ++ ([CR] ++ ([LF] ++ s1))) := by simp
    rw [hsplit, show P.length + 1 + j = (P ++ [36]).length + j by simp,
      getD_append_size, getD_append_small _ _ j hj]
  have hgetCR1 : (P ++ 36 :: (d ++ [CR, LF] ++ s1)).getD (P.length + 1 + d.length) 0
      = CR := by
    have hsplit : P ++ 36 :: (d ++ [CR, LF] ++ s1)
        = ((P ++ [36]) ++ d) ++ ([CR] ++ ([LF] ++ s1)) := by simp
    rw [hsplit, show P.length + 1 + d.length = ((P ++ [36]) ++ d).length + 0 by
      simp only [List.length_append, List.length_cons, List.length_nil]; omega,
      getD_append_size]
    rfl
  have hgetLF1 : (P ++ 36 :: (d ++ [CR, LF] ++ s1)).getD (P.length + 1 + d.length + 1) 0
      = LF := by
    have hsplit : P ++ 36 :: (d ++ [CR, LF] ++ s1)
        = (((P ++ [36]) ++ d) ++ [CR]) ++ ([LF] ++ s1) := by simp
    rw [hsplit, show P.length + 1 + d.length + 1 = (((P ++ [36]) ++ d) ++ [CR]).length + 0 by
      simp only [List.length_append, List.length_cons, List.length_nil]; try omega,
      getD_append_size]
    rfl
  have hscan := scanLF_found (P ++ 36 :: (d ++ [CR, LF] ++ s1))
    ((P ++ 36 :: (d ++ [CR, LF] ++ s1)).length - 1) (d.length + 1) (P.length + 1)
    (by
      intro j hj
      intro hcontra
      by_cases hjd : j < d.length
      · have := (noCRLF_getD d j hjd (hd ▸ natDigits_noCRLF n)).2
        rw [hgetDig j hjd] at hcontra
        exact this hcontra.1
      · have hjeq : j = d.length := by omega
        subst hjeq
        rw [hgetCR1] at hcontra
        have : CR = LF := hcontra.1
        simp [CR, LF] at this)
    (by rw [show P.length + 1 + (d.length + 1) = P.length + 1 + d.length + 1 by omega,
        hgetLF1])
    (by rw [show P.length + 1 + (d.length + 1) - 1 = P.length + 1 + d.length by omega,
        hgetCR1])
    (by rw [hlenB]; omega)
  have hslice1 : byteSlice (P ++ 36 :: (d ++ [CR, LF] ++ s1))
      (P.length + 1) (P.length + 1 + (d.length + 1) - 1) = d := by
    have hsplit : P ++ 36 :: (d ++ [CR, LF] ++ s1)
        = (P ++ [36]) ++ d ++ ([CR, LF] ++ s1) := by simp
    have hth := byteSlice_exact (P ++ [36]) d ([CR, LF] ++ s1)
    rw [hsplit, show P.length + 1 + (d.length + 1) - 1 = (P ++ [36]).length + d.length by
      simp only [List.length_append, List.length_cons, List.length_nil]; omega,
      show P.length + 1 = (P ++ [36]).length by simp]
    exact hth
  unfold get_bulk_string
  rw [if_neg (by rw [hlenB]; omega)]
  simp only [hscan, hslice1]
  have hparse : parseUnsigned (2 ^ 64) d = some n := by
    rw [hd]
    exact parseUnsigned_natDigits (2 ^ 64) n hn
  simp only [hparse]
  rw [if_neg ?hneg]
  case hneg =>
    intro hx
    have hb := hx.1
    rw [hlenB] at hb
    omega


/-- Inserting a key greater than every stored key appends the entry. -/
theorem btreeInsert_append (acc : List (Frame × Frame)) (k v : Frame)
    (h : ∀ p ∈ acc, frameCmp k p.1 = some Ordering.gt) :
    btreeInsert acc k v = some (acc ++ [(k, v)]) := by
  induction acc with
  | nil => rfl
  | cons p rest ih =>
    rcases p with ⟨k0, v0⟩
    have h0 := h (k0, v0) (List.mem_cons_self _ _)
    simp only [btreeInsert, h0]
    rw [ih (fun q hq => h q (List.mem_cons_of_mem _ hq))]
    rfl

/-- Every frame encoding is nonempty. -/
theorem encode_ne_nil (f : Frame) : f.encode ≠ [] := by
  cases f <;> simp [Frame.encode]

theorem encodeFrames_eq_nil (fs : List Frame) (h : encodeFrames fs = []) : fs = [] := by
  cases fs with
  | nil => rfl
  | cons f fs =>
    exfalso
    simp only [encodeFrames] at h
    exact encode_ne_nil f (List.append_eq_nil.1 h).1

theorem encodeEntries_eq_nil (es : List (Frame × Frame)) (h : encodeEntries es = []) :
    es = [] := by
  cases es with
  | nil => rfl
  | cons p es =>
    exfalso
    rcases p with ⟨k, v⟩
    simp only [encodeEntries] at h
    exact encode_ne_nil k (List.append_eq_nil.1 (List.append_eq_nil.1 h).1).1

theorem intDigits_noCRLF (i : Int) : noCRLF (intDigits i) = true := by
  unfold intDigits
  by_cases h : i < 0
  · rw [if_pos h]
    have := natDigits_noCRLF (-i).toNat
    simp only [noCRLF, List.all_eq_true] at this ⊢
    intro b hb
    rcases List.mem_cons.1 hb with hb | hb
    · subst hb; decide
    · exact this b hb
  · rw [if_neg h]
    exact natDigits_noCRLF i.toNat

/-- `parseSigned` on plain digit bytes. -/
theorem parseSigned_natDigits (bound n : Nat) (h : n < bound) :
    parseSigned bound (natDigits n) = some (n : Int) := by
  have := parseSigned_intDigits bound (n : Int) (by omega) (by exact_mod_cast h)
  rw [show intDigits (n : Int) = natDigits n from by
    unfold intDigits
    rw [if_neg (by omega)]
    simp] at this
  exact this

/-- Peeking at the position right before a cons cell yields its head. -/
theorem peek_tag (P : List Nat) (c : Nat) (Y : List Nat) :
    peek_byte (P ++ c :: Y) P.length = some c := by
  unfold peek_byte
  rw [if_pos (by simp)]
  congr 1
  rw [show P.length = P.length + 0 by omega, getD_append_size]
  rfl

mutual

/-- Decoding `encode f` for a well-formed `f` at an arbitrary position:
with at least one byte of further input it yields exactly `f` with the
cursor at the end of the encoding; with nothing after it, it either still
succeeds (bulk frames) or reports `Incomplete`. -/
theorem DEC_frame : ∀ (f : Frame) (fuel : Nat) (P t : List Nat),
    wfB f = true → f.encode.length + t.length < fuel →
    decodeAux fuel (P ++ f.encode ++ t) P.length
      = (.Ok f, P.length + f.encode.length)
    ∨ (t = []
      ∧ (decodeAux fuel (P ++ f.encode ++ t) P.length).1 = .Err .Incomplete)
  | .Simple s, fuel, P, t, hwf, hfuel => by
    obtain ⟨F, rfl⟩ : ∃ F, fuel = F + 1 := ⟨fuel - 1, by omega⟩
    have hwfs : noCRLF s = true := by simpa [wfB] using hwf
    have henc : (Frame.Simple s).encode = 43 :: (s ++ [CR, LF]) := by
      simp [Frame.encode]
    have hpeek : peek_byte (P ++ (Frame.Simple s).encode ++ t) P.length = some 43 := by
      rw [show P ++ (Frame.Simple s).encode ++ t = P ++ 43 :: ((s ++ [CR, LF]) ++ t)
        from by rw [henc]; simp]
      exact peek_tag P 43 ((s ++ [CR, LF]) ++ t)
    have hstep : decodeAux (F + 1) (P ++ (Frame.Simple s).encode ++ t) P.length
        = liftStr (get_simple_string (P ++ (Frame.Simple s).encode ++ t) P.length)
            (fun s2 => .Ok (.Simple s2)) := by
      simp only [decodeAux, hpeek]
      norm_num
    by_cases ht : t = []
    · subst ht
      right
      refine ⟨rfl, ?_⟩
      rw [hstep, show P ++ (Frame.Simple s).encode ++ [] = P ++ 43 :: (s ++ [CR, LF])
          from by rw [henc]; simp,
        gs_incomplete_lineEnd P 43 s hwfs]
      rfl
    · left
      rw [hstep, show P ++ (Frame.Simple s).encode ++ t = P ++ (43 :: (s ++ [CR, LF])) ++ t
          from by rw [henc],
        gs_ok P 43 s t hwfs ht]
      simp only [liftStr, henc, Prod.mk.injEq, List.length_cons, List.length_append,
        List.length_nil]
      exact ⟨by trivial, by omega⟩
  | .Error s, fuel, P, t, hwf, hfuel => by
    obtain ⟨F, rfl⟩ : ∃ F, fuel = F + 1 := ⟨fuel - 1, by omega⟩
    have hwfs : noCRLF s = true := by simpa [wfB] using hwf
    have henc : (Frame.Error s).encode = 45 :: (s ++ [CR, LF]) := by
      simp [Frame.encode]
    have hpeek : peek_byte (P ++ (Frame.Error s).encode ++ t) P.length = some 45 := by
      rw [show P ++ (Frame.Error s).encode ++ t = P ++ 45 :: ((s ++ [CR, LF]) ++ t)
        from by rw [henc]; simp]
      exact peek_tag P 45 ((s ++ [CR, LF]) ++ t)
    have hstep : decodeAux (F + 1) (P ++ (Frame.Error s).encode ++ t) P.length
        = liftStr (get_simple_string (P ++ (Frame.Error s).encode ++ t) P.length)
            (fun s2 => .Ok (.Error s2)) := by
      simp only [decodeAux, hpeek]
      norm_num
    by_cases ht : t = []
    · subst ht
      right
      refine ⟨rfl, ?_⟩
      rw [hstep, show P ++ (Frame.Error s).encode ++ [] = P ++ 45 :: (s ++ [CR, LF])
          from by rw [henc]; simp,
        gs_incomplete_lineEnd P 45 s hwfs]
      rfl
    · left
      rw [hstep, show P ++ (Frame.Error s).encode ++ t = P ++ (45 :: (s ++ [CR, LF])) ++ t
          from by rw [henc],
        gs_ok P 45 s t hwfs ht]
      simp only [liftStr, henc, Prod.mk.injEq, List.length_cons, List.length_append,
        List.length_nil]
      exact ⟨by trivial, by omega⟩
  | .Integer i, fuel, P, t, hwf, hfuel => by
    obtain ⟨F, rfl⟩ : ∃ F, fuel = F + 1 := ⟨fuel - 1, by omega⟩
    have hwfi : -(2 ^ 63 : Int) ≤ i ∧ i < 2 ^ 63 := by
      simp only [wfB, Bool.and_eq_true, decide_eq_true_eq] at hwf
      exact hwf
    have hdig : noCRLF (intDigits i) = true := intDigits_noCRLF i
    have henc : (Frame.Integer i).encode = 58 :: (intDigits i ++ [CR, LF]) := by
      simp [Frame.encode]
    have hpeek : peek_byte (P ++ (Frame.Integer i).encode ++ t) P.length = some 58 := by
      rw [show P ++ (Frame.Integer i).encode ++ t
          = P ++ 58 :: ((intDigits i ++ [CR, LF]) ++ t) from by rw [henc]; simp]
      exact peek_tag P 58 ((intDigits i ++ [CR, LF]) ++ t)
    have hstep : decodeAux (F + 1) (P ++ (Frame.Integer i).encode ++ t) P.length
        = liftStr (get_simple_string (P ++ (Frame.Integer i).encode ++ t) P.length)
            (fun s2 => match parseSigned (2 ^ 63) s2 with
              | some n => .Ok (.Integer n)
              | none => .Err .IntFromUTF8) := by
      simp only [decodeAux, hpeek]
      norm_num
    by_cases ht : t = []
    · subst ht
      right
      refine ⟨rfl, ?_⟩
      rw [hstep, show P ++ (Frame.Integer i).encode ++ []
          = P ++ 58 :: (intDigits i ++ [CR, LF]) from by rw [henc]; simp,
        gs_incomplete_lineEnd P 58 (intDigits i) hdig]
      rfl
    · left
      rw [hstep, show P ++ (Frame.Integer i).encode ++ t
          = P ++ (58 :: (intDigits i ++ [CR, LF])) ++ t from by rw [henc],
        gs_ok P 58 (intDigits i) t hdig ht]
      simp only [liftStr, parseSigned_intDigits (2 ^ 63) i hwfi.1 hwfi.2, henc,
        Prod.mk.injEq, List.length_cons, List.length_append, List.length_nil]
      exact ⟨by trivial, by omega⟩
  | .Bulk s, fuel, P, t, hwf, hfuel => by
    obtain ⟨F, rfl⟩ : ∃ F, fuel = F + 1 := ⟨fuel - 1, by omega⟩
    have hwfs : s.length < 2 ^ 64 := by
      simpa [wfB] using hwf
    have henc : (Frame.Bulk s).encode
        = 36 :: (natDigits s.length ++ [CR, LF] ++ s ++ [CR, LF]) := by
      simp [Frame.encode]
    have hpeek : peek_byte (P ++ (Frame.Bulk s).encode ++ t) P.length = some 36 := by
      rw [show P ++ (Frame.Bulk s).encode ++ t
          = P ++ 36 :: ((natDigits s.length ++ [CR, LF] ++ s ++ [CR, LF]) ++ t)
        from by rw [henc]; simp]
      exact peek_tag P 36 ((natDigits s.length ++ [CR, LF] ++ s ++ [CR, LF]) ++ t)
    have hstep : decodeAux (F + 1) (P ++ (Frame.Bulk s).encode ++ t) P.length
        = liftStr (get_bulk_string (P ++ (Frame.Bulk s).encode ++ t) P.length)
            (fun s2 => .Ok (.Bulk s2)) := by
      simp only [decodeAux, hpeek]
      norm_num
    left
    rw [hstep, show P ++ (Frame.Bulk s).encode ++ t
        = P ++ (36 :: (natDigits s.length ++ [CR, LF] ++ s ++ [CR, LF])) ++ t
        from by rw [henc],
      gb_ok P s t hwfs]
    simp only [liftStr, henc, Prod.mk.injEq, List.length_cons, List.length_append,
      List.length_nil]
    exact ⟨by trivial, by omega⟩
  | .Boolean b, fuel, P, t, _, hfuel => by
    obtain ⟨F, rfl⟩ : ∃ F, fuel = F + 1 := ⟨fuel - 1, by omega⟩
    have henc : (Frame.Boolean b).encode
        = 35 :: ((if b then [116] else [102]) ++ [CR, LF]) := by
      simp [Frame.encode]
    have hcl : noCRLF (if b then [116] else [102]) = true := by
      cases b <;> decide
    have hpeek : peek_byte (P ++ (Frame.Boolean b).encode ++ t) P.length = some 35 := by
      rw [show P ++ (Frame.Boolean b).encode ++ t
          = P ++ 35 :: (((if b then [116] else [102]) ++ [CR, LF]) ++ t)
        from by rw [henc]; simp]
      exact peek_tag P 35 _
    have hstep : decodeAux (F + 1) (P ++ (Frame.Boolean b).encode ++ t) P.length
        = liftStr (get_simple_string (P ++ (Frame.Boolean b).encode ++ t) P.length)
            (fun s2 => if s2 = [116] then .Ok (.Boolean true)
              else if s2 = [102] then .Ok (.Boolean false)
              else .Err .InvalidFrame) := by
      simp only [decodeAux, hpeek]
      norm_num
    by_cases ht : t = []
    · subst ht
      right
      refine ⟨rfl, ?_⟩
      rw [hstep, show P ++ (Frame.Boolean b).encode ++ []
          = P ++ 35 :: ((if b then [116] else [102]) ++ [CR, LF]) from by rw [henc]; simp,
        gs_incomplete_lineEnd P 35 _ hcl]
      rfl
    · left
      rw [hstep, show P ++ (Frame.Boolean b).encode ++ t
          = P ++ (35 :: ((if b then [116] else [102]) ++ [CR, LF])) ++ t
          from by rw [henc],
        gs_ok P 35 (if b then [116] else [102]) t hcl ht]
      cases b <;>
        simp [liftStr, henc, Prod.mk.injEq]
  | .Null, fuel, P, t, _, hfuel => by
    obtain ⟨F, rfl⟩ : ∃ F, fuel = F + 1 := ⟨fuel - 1, by omega⟩
    have henc : (Frame.Null).encode = 95 :: (([] : List Nat) ++ [CR, LF]) := by
      simp [Frame.encode]
    have hpeek : peek_byte (P ++ (Frame.Null).encode ++ t) P.length = some 95 := by
      rw [show P ++ (Frame.Null).encode ++ t
          = P ++ 95 :: ((([] : List Nat) ++ [CR, LF]) ++ t) from by rw [henc]; simp]
      exact peek_tag P 95 _
    have hstep : decodeAux (F + 1) (P ++ (Frame.Null).encode ++ t) P.length
        = liftStr (get_simple_string (P ++ (Frame.Null).encode ++ t) P.length)
            (fun s2 => if s2 = [] then .Ok .Null else .Err .InvalidFrame) := by
      simp only [decodeAux, hpeek]
      norm_num
    by_cases ht : t = []
    · subst ht
      right
      refine ⟨rfl, ?_⟩
      rw [hstep, show P ++ (Frame.Null).encode ++ []
          = P ++ 95 :: (([] : List Nat) ++ [CR, LF]) from by rw [henc]; simp,
        gs_incomplete_lineEnd P 95 [] (by decide)]
      rfl
    · left
      rw [hstep, show P ++ (Frame.Null).encode ++ t
          = P ++ (95 :: (([] : List Nat) ++ [CR, LF])) ++ t from by rw [henc],
        gs_ok P 95 [] t (by decide) ht]
      simp [liftStr, henc, Prod.mk.injEq]
  | .Array fs, fuel, P, t, hwf, hfuel => by
    obtain ⟨F, rfl⟩ : ∃ F, fuel = F + 1 := ⟨fuel - 1, by omega⟩
    have hwf2 : fs.length < 2 ^ 31 ∧ wfList fs = true := by
      simp only [wfB, Bool.and_eq_true, decide_eq_true_eq] at hwf
      exact hwf
    have henc : (Frame.Array fs).encode
        = 42 :: (natDigits fs.length ++ [CR, LF] ++ encodeFrames fs) := by
      simp [Frame.encode]
    have henclen : (Frame.Array fs).encode.length
        = (natDigits fs.length).length + (encodeFrames fs).length + 3 := by
      rw [henc]
      simp
      omega
    have hdlen : 1 ≤ (natDigits fs.length).length :=
      List.length_pos.mpr (natDigits_ne_nil fs.length)
    have hpeek : peek_byte (P ++ (Frame.Array fs).encode ++ t) P.length = some 42 := by
      rw [show P ++ (Frame.Array fs).encode ++ t
          = P ++ 42 :: ((natDigits fs.length ++ [CR, LF] ++ encodeFrames fs) ++ t)
        from by rw [henc]; simp]
      exact peek_tag P 42 _
    have hstep : decodeAux (F + 1) (P ++ (Frame.Array fs).encode ++ t) P.length
        = decode_array (decodeAux F (P ++ (Frame.Array fs).encode ++ t))
            (P ++ (Frame.Array fs).encode ++ t) P.length := by
      simp only [decodeAux, hpeek]
      norm_num
    by_cases hrest : encodeFrames fs ++ t = []
    · have ht : t = [] := (List.append_eq_nil.1 hrest).2
      have hfs0 : fs = [] := encodeFrames_eq_nil fs (List.append_eq_nil.1 hrest).1
      subst ht
      subst hfs0
      right
      refine ⟨rfl, ?_⟩
      rw [hstep]
      unfold decode_array
      rw [show P ++ (Frame.Array []).encode ++ []
          = P ++ 42 :: (natDigits 0 ++ [CR, LF]) from by
          rw [henc]; simp [encodeFrames],
        gs_incomplete_lineEnd P 42 (natDigits 0) (natDigits_noCRLF 0)]
    · have hgs : get_simple_string (P ++ (Frame.Array fs).encode ++ t) P.length
          = (.Ok (natDigits fs.length),
             P.length + (natDigits fs.length).length + 3) := by
        rw [show P ++ (Frame.Array fs).encode ++ t
            = P ++ (42 :: (natDigits fs.length ++ [CR, LF])) ++ (encodeFrames fs ++ t)
            from by rw [henc]; simp]
        exact gs_ok P 42 (natDigits fs.length) (encodeFrames fs ++ t)
          (natDigits_noCRLF fs.length) hrest
      have hrec := DEC_list fs F (P ++ 42 :: (natDigits fs.length ++ [CR, LF])) t []
        hwf2.2 (by rw [henclen] at hfuel; omega)
      have hbufeq : (P ++ 42 :: (natDigits fs.length ++ [CR, LF])) ++ encodeFrames fs ++ t
          = P ++ (Frame.Array fs).encode ++ t := by
        rw [henc]; simp
      have hposeq : (P ++ 42 :: (natDigits fs.length ++ [CR, LF])).length
          = P.length + (natDigits fs.length).length + 3 := by
        simp
        omega
      rw [hbufeq, hposeq] at hrec
      rw [hstep]
      unfold decode_array
      rw [hgs]
      simp only [parseSigned_natDigits (2 ^ 31) fs.length hwf2.1, Int.toNat_ofNat]
      rcases hrec with hok | ⟨ht, hinc⟩
      · left
        rw [hok]
        simp only [List.nil_append, Prod.mk.injEq, henclen]
        exact ⟨by trivial, by omega⟩
      · right
        exact ⟨ht, hinc⟩
  | .Map es, fuel, P, t, hwf, hfuel => by
    obtain ⟨F, rfl⟩ : ∃ F, fuel = F + 1 := ⟨fuel - 1, by omega⟩
    have hwf2 : es.length < 2 ^ 31 ∧ wfPairs es = true ∧ sortedKeysGT es = true := by
      simp only [wfB, Bool.and_eq_true, decide_eq_true_eq] at hwf
      exact ⟨hwf.1.1, hwf.1.2, hwf.2⟩
    have henc : (Frame.Map es).encode
        = 37 :: (natDigits es.length ++ [CR, LF] ++ encodeEntries es) := by
      simp [Frame.encode]
    have henclen : (Frame.Map es).encode.length
        = (natDigits es.length).length + (encodeEntries es).length + 3 := by
      rw [henc]
      simp
      omega
    have hpeek : peek_byte (P ++ (Frame.Map es).encode ++ t) P.length = some 37 := by
      rw [show P ++ (Frame.Map es).encode ++ t
          = P ++ 37 :: ((natDigits es.length ++ [CR, LF] ++ encodeEntries es) ++ t)
        from by rw [henc]; simp]
      exact peek_tag P 37 _
    have hstep : decodeAux (F + 1) (P ++ (Frame.Map es).encode ++ t) P.length
        = decode_map (decodeAux F (P ++ (Frame.Map es).encode ++ t))
            (P ++ (Frame.Map es).encode ++ t) P.length := by
      simp only [decodeAux, hpeek]
      norm_num
    by_cases hrest : encodeEntries es ++ t = []
    · have ht : t = [] := (List.append_eq_nil.1 hrest).2
      have hes0 : es = [] := encodeEntries_eq_nil es (List.append_eq_nil.1 hrest).1
      subst ht
      subst hes0
      right
      refine ⟨rfl, ?_⟩
      rw [hstep]
      unfold decode_map
      rw [show P ++ (Frame.Map []).encode ++ []
          = P ++ 37 :: (natDigits 0 ++ [CR, LF]) from by
          rw [henc]; simp [encodeEntries],
        gs_incomplete_lineEnd P 37 (natDigits 0) (natDigits_noCRLF 0)]
    · have hgs : get_simple_string (P ++ (Frame.Map es).encode ++ t) P.length
          = (.Ok (natDigits es.length),
             P.length + (natDigits es.length).length + 3) := by
        rw [show P ++ (Frame.Map es).encode ++ t
            = P ++ (37 :: (natDigits es.length ++ [CR, LF])) ++ (encodeEntries es ++ t)
            from by rw [henc]; simp]
        exact gs_ok P 37 (natDigits es.length) (encodeEntries es ++ t)
          (natDigits_noCRLF es.length) hrest
      have hrec := DEC_pairs es F (P ++ 37 :: (natDigits es.length ++ [CR, LF])) t []
        hwf2.2.1 hwf2.2.2 (by intro p _ q hq; exact absurd hq (List.not_mem_nil q))
        (by rw [henclen] at hfuel; omega)
      have hbufeq : (P ++ 37 :: (natDigits es.length ++ [CR, LF])) ++ encodeEntries es ++ t
          = P ++ (Frame.Map es).encode ++ t := by
        rw [henc]; simp
      have hposeq : (P ++ 37 :: (natDigits es.length ++ [CR, LF])).length
          = P.length + (natDigits es.length).length + 3 := by
        simp
        omega
      rw [hbufeq, hposeq] at hrec
      rw [hstep]
      unfold decode_map
      rw [hgs]
      simp only [parseSigned_natDigits (2 ^ 31) es.length hwf2.1, Int.toNat_ofNat]
      rcases hrec with hok | ⟨ht, hinc⟩
      · left
        rw [hok]
        simp only [List.nil_append, Prod.mk.injEq, henclen]
        exact ⟨by trivial, by omega⟩
      · right
        exact ⟨ht, hinc⟩

/-- The element loop of `decode_array` over the encodings of `fs` followed
by `t`, starting with the already-pushed `acc`. -/
theorem DEC_list : ∀ (fs : List Frame) (fuel : Nat) (P t : List Nat) (acc : List Frame),
    wfList fs = true → (encodeFrames fs).length + t.length < fuel →
    decodeElems (decodeAux fuel (P ++ encodeFrames fs ++ t)) fs.length P.length acc
      = (.Ok (.Array (acc ++ fs)), P.length + (encodeFrames fs).length)
    ∨ (t = []
      ∧ (decodeElems (decodeAux fuel (P ++ encodeFrames fs ++ t)) fs.length
          P.length acc).1 = .Err .Incomplete)
  | [], fuel, P, t, acc, _, _ => by
    left
    simp [decodeElems, encodeFrames]
  | f :: fs, fuel, P, t, acc, hwf, hfuel => by
    have hwf2 : wfB f = true ∧ wfList fs = true := by
      simp only [wfList, Bool.and_eq_true] at hwf
      exact hwf
    have hlenstep : (encodeFrames (f :: fs)).length
        = f.encode.length + (encodeFrames fs).length := by
      simp [encodeFrames]
    have hbufeq : P ++ encodeFrames (f :: fs) ++ t
        = P ++ f.encode ++ (encodeFrames fs ++ t) := by
      simp [encodeFrames]
    have hchild := DEC_frame f fuel P (encodeFrames fs ++ t) hwf2.1
      (by rw [hlenstep] at hfuel; simp only [List.length_append]; omega)
    rw [← hbufeq] at hchild
    show (decodeElems (decodeAux fuel (P ++ encodeFrames (f :: fs) ++ t))
        (fs.length + 1) P.length acc
        = (.Ok (.Array (acc ++ f :: fs)), P.length + (encodeFrames (f :: fs)).length))
      ∨ _
    rcases hchild with hok | ⟨hnil, hinc⟩
    · have hrec := DEC_list fs fuel (P ++ f.encode) t (acc ++ [f]) hwf2.2
        (by rw [hlenstep] at hfuel; omega)
      have hbufeq2 : (P ++ f.encode) ++ encodeFrames fs ++ t
          = P ++ encodeFrames (f :: fs) ++ t := by
        simp [encodeFrames]
      have hposeq2 : (P ++ f.encode).length = P.length + f.encode.length := by simp
      rw [hbufeq2, hposeq2] at hrec
      simp only [decodeElems, hok]
      rcases hrec with hok2 | ⟨ht, hinc2⟩
      · left
        rw [hok2]
        simp only [List.append_assoc, List.singleton_append, Prod.mk.injEq, hlenstep]
        exact ⟨by trivial, by omega⟩
      · right
        exact ⟨ht, by rw [hinc2]⟩
    · have ht : t = [] := (List.append_eq_nil.1 hnil).2
      have hfs0 : fs = [] := encodeFrames_eq_nil fs (List.append_eq_nil.1 hnil).1
      subst ht
      subst hfs0
      right
      refine ⟨rfl, ?_⟩
      simp only [decodeElems]
      rcases hres : decodeAux fuel (P ++ encodeFrames [f] ++ []) P.length with ⟨r, p2⟩
      rw [hres] at hinc
      simp only at hinc
      subst hinc
      rfl

/-- The entry loop of `decode_map` over the encodings of the ascending
entry list `es` followed by `t`, starting from the already-built `acc`. -/
theorem DEC_pairs : ∀ (es : List (Frame × Frame)) (fuel : Nat) (P t : List Nat)
      (acc : List (Frame × Frame)),
    wfPairs es = true → sortedKeysGT es = true →
    (∀ p ∈ es, ∀ q ∈ acc, frameCmp p.1 q.1 = some Ordering.gt) →
    (encodeEntries es).length + t.length < fuel →
    decodeEntries (decodeAux fuel (P ++ encodeEntries es ++ t)) es.length P.length acc
      = (.Ok (.Map (acc ++ es)), P.length + (encodeEntries es).length)
    ∨ (t = []
      ∧ (decodeEntries (decodeAux fuel (P ++ encodeEntries es ++ t)) es.length
          P.length acc).1 = .Err .Incomplete)
  | [], fuel, P, t, acc, _, _, _, _ => by
    left
    simp [decodeEntries, encodeEntries]
  | (k, v) :: es, fuel, P, t, acc, hwf, hsorted, hacc, hfuel => by
    have hwf2 : wfB k = true ∧ wfB v = true ∧ wfPairs es = true := by
      simp only [wfPairs, Bool.and_eq_true] at hwf
      exact ⟨hwf.1.1, hwf.1.2, hwf.2⟩
    have hsort2 : (∀ p ∈ es, frameCmp p.1 k = some Ordering.gt)
        ∧ sortedKeysGT es = true := by
      simp only [sortedKeysGT, Bool.and_eq_true, List.all_eq_true,
        decide_eq_true_eq] at hsorted
      exact hsorted
    have hlenstep : (encodeEntries ((k, v) :: es)).length
        = k.encode.length + v.encode.length + (encodeEntries es).length := by
      simp [encodeEntries]
      omega
    have hbufeq : P ++ encodeEntries ((k, v) :: es) ++ t
        = P ++ k.encode ++ (v.encode ++ encodeEntries es ++ t) := by
      simp [encodeEntries]
    have hkey := DEC_frame k fuel P (v.encode ++ encodeEntries es ++ t) hwf2.1
      (by rw [hlenstep] at hfuel; simp only [List.length_append]; omega)
    rw [← hbufeq] at hkey
    have hkeyok : decodeAux fuel (P ++ encodeEntries ((k, v) :: es) ++ t) P.length
        = (.Ok k, P.length + k.encode.length) := by
      rcases hkey with h | ⟨hnil, _⟩
      · exact h
      · exfalso
        exact encode_ne_nil v (List.append_eq_nil.1 (List.append_eq_nil.1 hnil).1).1
    have hbufeq2 : (P ++ k.encode) ++ v.encode ++ (encodeEntries es ++ t)
        = P ++ encodeEntries ((k, v) :: es) ++ t := by
      simp [encodeEntries]
    have hval := DEC_frame v fuel (P ++ k.encode) (encodeEntries es ++ t) hwf2.2.1
      (by rw [hlenstep] at hfuel; simp only [List.length_append]; omega)
    rw [hbufeq2] at hval
    have hposeq : (P ++ k.encode).length = P.length + k.encode.length := by simp
    rw [hposeq] at hval
    show (decodeEntries (decodeAux fuel (P ++ encodeEntries ((k, v) :: es) ++ t))
        (es.length + 1) P.length acc
        = (.Ok (.Map (acc ++ (k, v) :: es)),
           P.length + (encodeEntries ((k, v) :: es)).length))
      ∨ _
    have hins : btreeInsert acc k v = some (acc ++ [(k, v)]) :=
      btreeInsert_append acc k v
        (fun q hq => hacc (k, v) (List.mem_cons_self _ _) q hq)
    rcases hval with hvok | ⟨hnil, hvinc⟩
    · have hrec := DEC_pairs es fuel (P ++ k.encode ++ v.encode) t (acc ++ [(k, v)])
        hwf2.2.2 hsort2.2
        (by
          intro p hp q hq
          rcases List.mem_append.1 hq with hq | hq
          · exact hacc p (List.mem_cons_of_mem _ hp) q hq
          · have : q = (k, v) := by simpa using hq
            subst this
            exact hsort2.1 p hp)
        (by rw [hlenstep] at hfuel; omega)
      have hbufeq3 : (P ++ k.encode ++ v.encode) ++ encodeEntries es ++ t
          = P ++ encodeEntries ((k, v) :: es) ++ t := by
        simp [encodeEntries]
      have hposeq3 : (P ++ k.encode ++ v.encode).length
          = P.length + k.encode.length + v.encode.length := by
        simp only [List.length_append]
      rw [hbufeq3, hposeq3] at hrec
      simp only [decodeEntries, hkeyok, hvok, hins]
      rcases hrec with hok2 | ⟨ht, hinc2⟩
      · left
        rw [hok2]
        simp only [List.append_assoc, List.singleton_append, Prod.mk.injEq, hlenstep]
        exact ⟨by trivial, by omega⟩
      · right
        exact ⟨ht, by rw [hinc2]⟩
    · have ht : t = [] := (List.append_eq_nil.1 hnil).2
      have hes0 : es = [] := encodeEntries_eq_nil es (List.append_eq_nil.1 hnil).1
      subst ht
      subst hes0
      right
      refine ⟨rfl, ?_⟩
      simp only [decodeEntries, hkeyok]
      rcases hres : decodeAux fuel (P ++ encodeEntries [(k, v)] ++ [])
          (P.length + k.encode.length) with ⟨r, p2⟩
      rw [hres] at hvinc
      simp only at hvinc
      subst hvinc
      rfl

end

/-- Peeking at position 0 of a nonempty buffer. -/
theorem peek_cons (c : Nat) (Y : List Nat) : peek_byte (c :: Y) 0 = some c := by
  have := peek_tag [] c Y
  simpa using this

/-- C1 amended: for every well-formed frame `f` (CR/LF-free
`Simple`/`Error` payloads, `i64` integers, in-range lengths, genuinely
ascending `Map` entries) and at least one byte of input after `encode f`,
`decode` at position 0 returns exactly `f` with the cursor at
`(encode f).length`.  (On exactly `encode f` with no trailing byte the
decoder instead reports `Incomplete` for every frame that ends in a simple
line — see the counterexample.) -/
theorem decode_encode_roundtrip (f : Frame) (t : List Nat)
    (hwf : wfB f = true) (ht : t ≠ []) :
    decode (f.encode ++ t) 0 = (.Ok f, f.encode.length) := by
  have h := DEC_frame f ((f.encode ++ t).length + 1) [] t hwf
    (by simp only [List.length_append]; omega)
  simp only [List.nil_append, List.length_nil, Nat.zero_add] at h
  rcases h with hok | ⟨hnil, _⟩
  · exact hok
  · exact absurd hnil ht


/-- Witness for the amended C1 at `frameEx` with one trailing byte. -/
theorem decode_encode_roundtrip_witness :
    wfB frameEx = true ∧ [43] ≠ ([] : List Nat)
    ∧ decode (frameEx.encode ++ [43]) 0 = (.Ok frameEx, frameEx.encode.length) :=
  ⟨by decide, by simp, decode_encode_roundtrip frameEx [43] (by decide) (by simp)⟩

/-- C10 amended: an `Array` (resp. `Map`) header carrying a negative
decimal length within `i32` range decodes — provided at least one byte
follows the header line — to an empty `Array` (resp. `Map`) consuming
exactly the header line: the length is parsed as a signed integer and the
element loop runs zero times.  (With no byte after the header's CRLF the
result is `Incomplete` instead — see the counterexample.) -/
theorem decode_negative_length_empty (n : Int) (t : List Nat)
    (hlo : -(2 ^ 31 : Int) ≤ n) (hneg : n < 0) (ht : t ≠ []) :
    decode ((42 :: (intDigits n ++ [CR, LF])) ++ t) 0
      = (.Ok (.Array []), (intDigits n).length + 3)
    ∧ decode ((37 :: (intDigits n ++ [CR, LF])) ++ t) 0
      = (.Ok (.Map []), (intDigits n).length + 3) := by
  have hparse : parseSigned (2 ^ 31) (intDigits n) = some n :=
    parseSigned_intDigits (2 ^ 31) n hlo (by omega)
  have htoNat : n.toNat = 0 := Int.toNat_of_nonpos (by omega)
  have hgs : ∀ c : Nat, get_simple_string (c :: (intDigits n ++ CR :: LF :: t)) 0
      = (.Ok (intDigits n), (intDigits n).length + 3) := by
    intro c
    have := gs_ok [] c (intDigits n) t (intDigits_noCRLF n) ht
    simpa using this
  constructor
  · have hpeek : peek_byte ((42 :: (intDigits n ++ [CR, LF])) ++ t) 0 = some 42 := by
      rw [show (42 :: (intDigits n ++ [CR, LF])) ++ t
          = 42 :: ((intDigits n ++ [CR, LF]) ++ t) from by simp]
      exact peek_cons 42 _
    show decodeAux (((42 :: (intDigits n ++ [CR, LF])) ++ t).length + 1) _ 0 = _
    simp only [decodeAux, hpeek]
    norm_num
    unfold decode_array
    simp only [hgs, hparse, htoNat, decodeElems]
  · have hpeek : peek_byte ((37 :: (intDigits n ++ [CR, LF])) ++ t) 0 = some 37 := by
      rw [show (37 :: (intDigits n ++ [CR, LF])) ++ t
          = 37 :: ((intDigits n ++ [CR, LF]) ++ t) from by simp]
      exact peek_cons 37 _
    show decodeAux (((37 :: (intDigits n ++ [CR, LF])) ++ t).length + 1) _ 0 = _
    simp only [decodeAux, hpeek]
    norm_num
    unfold decode_map
    simp only [hgs, hparse, htoNat, decodeEntries]

/-- Witness for the amended C10 at length -1 with one trailing byte. -/
theorem decode_negative_length_empty_witness :
    (-(2 ^ 31 : Int) ≤ -1 ∧ (-1 : Int) < 0 ∧ [120] ≠ ([] : List Nat))
    ∧ decode ((42 :: (intDigits (-1) ++ [CR, LF])) ++ [120]) 0
      = (.Ok (.Array []), (intDigits (-1)).length + 3)
    ∧ decode ((37 :: (intDigits (-1) ++ [CR, LF])) ++ [120]) 0
      = (.Ok (.Map []), (intDigits (-1)).length + 3) :=
  ⟨⟨by norm_num, by norm_num, by simp⟩,
    (decode_negative_length_empty (-1) [120] (by norm_num) (by norm_num) (by simp)).1,
    (decode_negative_length_empty (-1) [120] (by norm_num) (by norm_num) (by simp)).2⟩

theorem noCRLF_take (x : List Nat) (k : Nat) (hx : noCRLF x = true) :
    noCRLF (x.take k) = true := by
  simp only [noCRLF, List.all_eq_true] at hx ⊢
  intro b hb
  exact hx b ((List.take_sublist k x).subset hb)

theorem getD_take (l : List Nat) (k j : Nat) (hj : j < k) :
    (l.take k).getD j 0 = l.getD j 0 := by
  by_cases hjl : j < l.length
  · rw [List.getD_eq_getElem (l.take k) 0 (by simp [List.length_take]; omega),
      List.getD_eq_getElem l 0 hjl]
    exact List.getElem_take l
  · rw [List.getD_eq_default l 0 (by omega),
      List.getD_eq_default (l.take k) 0 (by simp [List.length_take]; omega)]

/-- `get_simple_string` on a strictly truncated simple line (tag, clean
payload prefix, possibly the CR but never the full CRLF): `Incomplete`. -/
theorem gs_incomplete_prefix (P : List Nat) (c : Nat) (x : List Nat) (k : Nat)
    (hx : noCRLF x = true) (hk : k < x.length + 2) :
    get_simple_string (P ++ c :: ((x ++ [CR, LF]).take k)) P.length
      = (.Err .Incomplete, P.length) := by
  apply gs_incomplete
  intro j hj
  have hlen : ((x ++ [CR, LF]).take k).length ≤ k := by
    simp [List.length_take]
  have hjx : j < x.length := by
    have h2 : ((x ++ [CR, LF]).take k).length ≤ x.length + 2 := by
      simp [List.length_take]
    omega
  rw [getD_take _ k j (by omega), getD_append_small _ _ j hjx]
  exact noCRLF_getD x j hjx hx

/-- `get_bulk_string` on a strictly truncated length line: `Incomplete`. -/
theorem gb_incomplete_sizeline (P : List Nat) (n k : Nat)
    (h0 : (P ++ 36 :: ((natDigits n ++ [CR, LF]).take k)).getD 0 0 ≠ CR) :
    get_bulk_string (P ++ 36 :: ((natDigits n ++ [CR, LF]).take k)) P.length
      = (.Err .Incomplete, P.length) := by
  apply gb_incomplete_noLF
  · intro j hj
    have hlen : ((natDigits n ++ [CR, LF]).take k).length ≤ k := by
      simp [List.length_take]
    have hlen2 : ((natDigits n ++ [CR, LF]).take k).length
        ≤ (natDigits n).length + 2 := by
      simp [List.length_take]
    rw [getD_take _ k j (by omega)]
    by_cases hjd : j < (natDigits n).length
    · rw [getD_append_small _ _ j hjd]
      exact (noCRLF_getD _ j hjd (natDigits_noCRLF n)).2
    · have hje : j = (natDigits n).length := by omega
      subst hje
      rw [show (natDigits n).length = (natDigits n).length + 0 by omega,
        getD_append_size]
      decide
  · exact h0

mutual

/-- Decoding a STRICT prefix of `encode f` (the buffer ends with the
prefix) reports `Incomplete`, whatever the starting position.  The first
buffer byte is never CR (it is a frame tag in every use), which keeps the
wrapped bulk bounds check failing. -/
theorem DECP_frame : ∀ (f : Frame) (fuel : Nat) (P : List Nat) (k : Nat),
    wfB f = true → k < f.encode.length →
    (P ++ f.encode.take k).getD 0 0 ≠ CR → k < fuel →
    (decodeAux fuel (P ++ f.encode.take k) P.length).1 = .Err .Incomplete
  | .Simple s, fuel, P, k, hwf, hk, hhead, hfuel => by
    obtain ⟨F, rfl⟩ : ∃ F, fuel = F + 1 := ⟨fuel - 1, by omega⟩
    have henc : (Frame.Simple s).encode = 43 :: (s ++ [CR, LF]) := by
      simp [Frame.encode]
    rcases Nat.eq_zero_or_pos k with hk0 | hkpos
    · subst hk0
      simp only [List.take_zero, List.append_nil, decodeAux, peek_byte]
      rw [if_neg (by omega)]
    · obtain ⟨k2, rfl⟩ : ∃ k2, k = k2 + 1 := ⟨k - 1, by omega⟩
      have htake : (Frame.Simple s).encode.take (k2 + 1)
          = 43 :: ((s ++ [CR, LF]).take k2) := by
        rw [henc]
        simp
      have hpeek : peek_byte (P ++ (Frame.Simple s).encode.take (k2 + 1)) P.length
          = some 43 := by
        rw [htake]
        exact peek_tag P 43 _
      have hwfs : noCRLF s = true := by simpa [wfB] using hwf
      have hk2 : k2 < s.length + 2 := by
        rw [henc] at hk
        simp at hk
        omega
      have hstep : decodeAux (F + 1) (P ++ (Frame.Simple s).encode.take (k2 + 1)) P.length
          = liftStr (get_simple_string (P ++ (Frame.Simple s).encode.take (k2 + 1))
              P.length) (fun s2 => .Ok (.Simple s2)) := by
        simp only [decodeAux, hpeek]
        norm_num
      rw [hstep, htake, gs_incomplete_prefix P 43 s k2 hwfs hk2]
      rfl
  | .Error s, fuel, P, k, hwf, hk, hhead, hfuel => by
    obtain ⟨F, rfl⟩ : ∃ F, fuel = F + 1 := ⟨fuel - 1, by omega⟩
    have henc : (Frame.Error s).encode = 45 :: (s ++ [CR, LF]) := by
      simp [Frame.encode]
    rcases Nat.eq_zero_or_pos k with hk0 | hkpos
    · subst hk0
      simp only [List.take_zero, List.append_nil, decodeAux, peek_byte]
      rw [if_neg (by omega)]
    · obtain ⟨k2, rfl⟩ : ∃ k2, k = k2 + 1 := ⟨k - 1, by omega⟩
      have htake : (Frame.Error s).encode.take (k2 + 1)
          = 45 :: ((s ++ [CR, LF]).take k2) := by
        rw [henc]
        simp
      have hpeek : peek_byte (P ++ (Frame.Error s).encode.take (k2 + 1)) P.length
          = some 45 := by
        rw [htake]
        exact peek_tag P 45 _
      have hwfs : noCRLF s = true := by simpa [wfB] using hwf
      have hk2 : k2 < s.length + 2 := by
        rw [henc] at hk
        simp at hk
        omega
      have hstep : decodeAux (F + 1) (P ++ (Frame.Error s).encode.take (k2 + 1)) P.length
          = liftStr (get_simple_string (P ++ (Frame.Error s).encode.take (k2 + 1))
              P.length) (fun s2 => .Ok (.Error s2)) := by
        simp only [decodeAux, hpeek]
        norm_num
      rw [hstep, htake, gs_incomplete_prefix P 45 s k2 hwfs hk2]
      rfl
  | .Integer i, fuel, P, k, hwf, hk, hhead, hfuel => by
    obtain ⟨F, rfl⟩ : ∃ F, fuel = F + 1 := ⟨fuel - 1, by omega⟩
    have henc : (Frame.Integer i).encode = 58 :: (intDigits i ++ [CR, LF]) := by
      simp [Frame.encode]
    rcases Nat.eq_zero_or_pos k with hk0 | hkpos
    · subst hk0
      simp only [List.take_zero, List.append_nil, decodeAux, peek_byte]
      rw [if_neg (by omega)]
    · obtain ⟨k2, rfl⟩ : ∃ k2, k = k2 + 1 := ⟨k - 1, by omega⟩
      have htake : (Frame.Integer i).encode.take (k2 + 1)
          = 58 :: ((intDigits i ++ [CR, LF]).take k2) := by
        rw [henc]
        simp
      have hpeek : peek_byte (P ++ (Frame.Integer i).encode.take (k2 + 1)) P.length
          = some 58 := by
        rw [htake]
        exact peek_tag P 58 _
      have hk2 : k2 < (intDigits i).length + 2 := by
        rw [henc] at hk
        simp at hk
        omega
      have hstep : decodeAux (F + 1) (P ++ (Frame.Integer i).encode.take (k2 + 1)) P.length
          = liftStr (get_simple_string (P ++ (Frame.Integer i).encode.take (k2 + 1))
              P.length) (fun s2 => match parseSigned (2 ^ 63) s2 with
                | some n => .Ok (.Integer n)
                | none => .Err .IntFromUTF8) := by
        simp only [decodeAux, hpeek]
        norm_num
      rw [hstep, htake, gs_incomplete_prefix P 58 (intDigits i) k2 (intDigits_noCRLF i) hk2]
      rfl
  | .Boolean b, fuel, P, k, _, hk, hhead, hfuel => by
    obtain ⟨F, rfl⟩ : ∃ F, fuel = F + 1 := ⟨fuel - 1, by omega⟩
    have henc : (Frame.Boolean b).encode
        = 35 :: ((if b then [116] else [102]) ++ [CR, LF]) := by
      simp [Frame.encode]
    rcases Nat.eq_zero_or_pos k with hk0 | hkpos
    · subst hk0
      simp only [List.take_zero, List.append_nil, decodeAux, peek_byte]
      rw [if_neg (by omega)]
    · obtain ⟨k2, rfl⟩ : ∃ k2, k = k2 + 1 := ⟨k - 1, by omega⟩
      have htake : (Frame.Boolean b).encode.take (k2 + 1)
          = 35 :: (((if b then [116] else [102]) ++ [CR, LF]).take k2) := by
        rw [henc]
        simp
      have hpeek : peek_byte (P ++ (Frame.Boolean b).encode.take (k2 + 1)) P.length
          = some 35 := by
        rw [htake]
        exact peek_tag P 35 _
      have hcl : noCRLF (if b then [116] else [102]) = true := by
        cases b <;> decide
      have hk2 : k2 < (if b then [116] else [102]).length + 2 := by
        rw [henc] at hk
        cases b <;> simp at hk ⊢ <;> omega
      have hstep : decodeAux (F + 1) (P ++ (Frame.Boolean b).encode.take (k2 + 1)) P.length
          = liftStr (get_simple_string (P ++ (Frame.Boolean b).encode.take (k2 + 1))
              P.length) (fun s2 => if s2 = [116] then .Ok (.Boolean true)
                else if s2 = [102] then .Ok (.Boolean false)
                else .Err .InvalidFrame) := by
        simp only [decodeAux, hpeek]
        norm_num
      rw [hstep, htake,
        gs_incomplete_prefix P 35 (if b then [116] else [102]) k2 hcl hk2]
      rfl
  | .Null, fuel, P, k, _, hk, hhead, hfuel => by
    obtain ⟨F, rfl⟩ : ∃ F, fuel = F + 1 := ⟨fuel - 1, by omega⟩
    have henc : (Frame.Null).encode = 95 :: (([] : List Nat) ++ [CR, LF]) := by
      simp [Frame.encode]
    rcases Nat.eq_zero_or_pos k with hk0 | hkpos
    · subst hk0
      simp only [List.take_zero, List.append_nil, decodeAux, peek_byte]
      rw [if_neg (by omega)]
    · obtain ⟨k2, rfl⟩ : ∃ k2, k = k2 + 1 := ⟨k - 1, by omega⟩
      have htake : (Frame.Null).encode.take (k2 + 1)
          = 95 :: ((([] : List Nat) ++ [CR, LF]).take k2) := by
        rw [henc]
        simp
      have hpeek : peek_byte (P ++ (Frame.Null).encode.take (k2 + 1)) P.length
          = some 95 := by
        rw [htake]
        exact peek_tag P 95 _
      have hk2 : k2 < ([] : List Nat).length + 2 := by
        rw [henc] at hk
        simp at hk
        omega
      have hstep : decodeAux (F + 1) (P ++ (Frame.Null).encode.take (k2 + 1)) P.length
          = liftStr (get_simple_string (P ++ (Frame.Null).encode.take (k2 + 1))
              P.length) (fun s2 => if s2 = [] then .Ok .Null
                else .Err .InvalidFrame) := by
        simp only [decodeAux, hpeek]
        norm_num
      rw [hstep, htake, gs_incomplete_prefix P 95 [] k2 (by decide) hk2]
      rfl
  | .Bulk s, fuel, P, k, hwf, hk, hhead, hfuel => by
    obtain ⟨F, rfl⟩ : ∃ F, fuel = F + 1 := ⟨fuel - 1, by omega⟩
    have hwfs : s.length < 2 ^ 64 := by simpa [wfB] using hwf
    have henc : (Frame.Bulk s).encode
        = 36 :: (natDigits s.length ++ [CR, LF] ++ s ++ [CR, LF]) := by
      simp [Frame.encode]
    rcases Nat.eq_zero_or_pos k with hk0 | hkpos
    · subst hk0
      simp only [List.take_zero, List.append_nil, decodeAux, peek_byte]
      rw [if_neg (by omega)]
    · obtain ⟨k2, rfl⟩ : ∃ k2, k = k2 + 1 := ⟨k - 1, by omega⟩
      have htake : (Frame.Bulk s).encode.take (k2 + 1)
          = 36 :: ((natDigits s.length ++ [CR, LF] ++ s ++ [CR, LF]).take k2) := by
        rw [henc]
        simp
      have hpeek : peek_byte (P ++ (Frame.Bulk s).encode.take (k2 + 1)) P.length
          = some 36 := by
        rw [htake]
        exact peek_tag P 36 _
      have hk2 : k2 < (natDigits s.length).length + s.length + 4 := by
        rw [henc] at hk
        simp at hk
        omega
      have hstep : decodeAux (F + 1) (P ++ (Frame.Bulk s).encode.take (k2 + 1)) P.length
          = liftStr (get_bulk_string (P ++ (Frame.Bulk s).encode.take (k2 + 1))
              P.length) (fun s2 => .Ok (.Bulk s2)) := by
        simp only [decodeAux, hpeek]
        norm_num
      rw [hstep, htake]
      by_cases hcut : k2 ≤ (natDigits s.length).length + 2
      · have hXtake : (natDigits s.length ++ [CR, LF] ++ s ++ [CR, LF]).take k2
            = (natDigits s.length ++ [CR, LF]).take k2 := by
          rw [show natDigits s.length ++ [CR, LF] ++ s ++ [CR, LF]
              = (natDigits s.length ++ [CR, LF]) ++ (s ++ [CR, LF]) from by simp,
            List.take_append_eq_append_take,
            show k2 - (natDigits s.length ++ [CR, LF]).length = 0 from by
              simp only [List.length_append, List.length_cons, List.length_nil]
              omega]
          simp
        rw [hXtake]
        rw [gb_incomplete_sizeline P s.length k2 (by
          rw [htake, hXtake] at hhead
          exact hhead)]
        rfl
      · have hXtake : (natDigits s.length ++ [CR, LF] ++ s ++ [CR, LF]).take k2
            = natDigits s.length ++ [CR, LF]
              ++ ((s ++ [CR, LF]).take (k2 - ((natDigits s.length).length + 2))) := by
          rw [show natDigits s.length ++ [CR, LF] ++ s ++ [CR, LF]
              = (natDigits s.length ++ [CR, LF]) ++ (s ++ [CR, LF]) from by simp,
            List.take_append_eq_append_take,
            List.take_of_length_le (by
              simp only [List.length_append, List.length_cons, List.length_nil]
              omega)]
          congr 2
          simp only [List.length_append, List.length_cons, List.length_nil]
        rw [hXtake]
        have hs1len : ((s ++ [CR, LF]).take (k2 - ((natDigits s.length).length + 2))).length
            = k2 - ((natDigits s.length).length + 2) := by
          simp only [List.length_take, List.length_append, List.length_cons,
            List.length_nil]
          omega
        rw [gb_incomplete_short P _ s.length hwfs
          (by
            intro hnil
            have := congrArg List.length hnil
            rw [hs1len] at this
            simp only [List.length_nil] at this
            omega)
          (by rw [hs1len]; omega)]
        rfl
  | .Array fs, fuel, P, k, hwf, hk, hhead, hfuel => by
    obtain ⟨F, rfl⟩ : ∃ F, fuel = F + 1 := ⟨fuel - 1, by omega⟩
    have hwf2 : fs.length < 2 ^ 31 ∧ wfList fs = true := by
      simp only [wfB, Bool.and_eq_true, decide_eq_true_eq] at hwf
      exact hwf
    have henc : (Frame.Array fs).encode
        = 42 :: (natDigits fs.length ++ [CR, LF] ++ encodeFrames fs) := by
      simp [Frame.encode]
    rcases Nat.eq_zero_or_pos k with hk0 | hkpos
    · subst hk0
      simp only [List.take_zero, List.append_nil, decodeAux, peek_byte]
      rw [if_neg (by omega)]
    · obtain ⟨k2, rfl⟩ : ∃ k2, k = k2 + 1 := ⟨k - 1, by omega⟩
      have htake : (Frame.Array fs).encode.take (k2 + 1)
          = 42 :: ((natDigits fs.length ++ [CR, LF] ++ encodeFrames fs).take k2) := by
        rw [henc]
        simp
      have hpeek : peek_byte (P ++ (Frame.Array fs).encode.take (k2 + 1)) P.length
          = some 42 := by
        rw [htake]
        exact peek_tag P 42 _
      have hk2 : k2 < (natDigits fs.length).length + 2 + (encodeFrames fs).length := by
        rw [henc] at hk
        simp at hk
        omega
      have hstep : decodeAux (F + 1) (P ++ (Frame.Array fs).encode.take (k2 + 1)) P.length
          = decode_array (decodeAux F (P ++ (Frame.Array fs).encode.take (k2 + 1)))
              (P ++ (Frame.Array fs).encode.take (k2 + 1)) P.length := by
        simp only [decodeAux, hpeek]
        norm_num
      rw [hstep]
      by_cases hc1 : k2 < (natDigits fs.length).length + 2
      · have hXtake : (natDigits fs.length ++ [CR, LF] ++ encodeFrames fs).take k2
            = (natDigits fs.length ++ [CR, LF]).take k2 := by
          rw [List.take_append_eq_append_take,
            show k2 - (natDigits fs.length ++ [CR, LF]).length = 0 from by
              simp only [List.length_append, List.length_cons, List.length_nil]
              omega]
          simp
        unfold decode_array
        rw [htake, hXtake,
          gs_incomplete_prefix P 42 (natDigits fs.length) k2 (natDigits_noCRLF fs.length)
            hc1]
      · by_cases hc2 : k2 = (natDigits fs.length).length + 2
        · have hXtake : (natDigits fs.length ++ [CR, LF] ++ encodeFrames fs).take k2
              = natDigits fs.length ++ [CR, LF] := by
            rw [List.take_append_eq_append_take,
              List.take_of_length_le (by
                simp only [List.length_append, List.length_cons, List.length_nil]
                omega),
              show k2 - (natDigits fs.length ++ [CR, LF]).length = 0 from by
                simp only [List.length_append, List.length_cons, List.length_nil]
                omega]
            simp
          unfold decode_array
          rw [htake, hXtake,
            gs_incomplete_lineEnd P 42 (natDigits fs.length) (natDigits_noCRLF fs.length)]
        · have hm : (natDigits fs.length).length + 2 < k2 := by omega
          have hXtake : (natDigits fs.length ++ [CR, LF] ++ encodeFrames fs).take k2
              = (natDigits fs.length ++ [CR, LF])
                ++ ((encodeFrames fs).take (k2 - ((natDigits fs.length).length + 2))) := by
            rw [List.take_append_eq_append_take,
              List.take_of_length_le (by
                simp only [List.length_append, List.length_cons, List.length_nil]
                omega)]
            congr 2
            simp only [List.length_append, List.length_cons, List.length_nil]
          have hmlen : k2 - ((natDigits fs.length).length + 2) < (encodeFrames fs).length := by
            omega
          have htne : (encodeFrames fs).take (k2 - ((natDigits fs.length).length + 2))
              ≠ [] := by
            intro hnil
            have := congrArg List.length hnil
            simp only [List.length_take, List.length_nil] at this
            omega
          have hgs : get_simple_string (P ++ (Frame.Array fs).encode.take (k2 + 1)) P.length
              = (.Ok (natDigits fs.length),
                 P.length + (natDigits fs.length).length + 3) := by
            rw [htake, hXtake,
              show P ++ 42 :: (natDigits fs.length ++ [CR, LF]
                  ++ (encodeFrames fs).take (k2 - ((natDigits fs.length).length + 2)))
                = P ++ (42 :: (natDigits fs.length ++ [CR, LF]))
                  ++ (encodeFrames fs).take (k2 - ((natDigits fs.length).length + 2))
                from by simp]
            exact gs_ok P 42 (natDigits fs.length) _ (natDigits_noCRLF fs.length) htne
          unfold decode_array
          rw [hgs]
          simp only [parseSigned_natDigits (2 ^ 31) fs.length hwf2.1, Int.toNat_ofNat]
          have hbufeq : (P ++ 42 :: (natDigits fs.length ++ [CR, LF]))
              ++ (encodeFrames fs).take (k2 - ((natDigits fs.length).length + 2))
              = P ++ (Frame.Array fs).encode.take (k2 + 1) := by
            rw [htake, hXtake]
            simp
          have hposeq : (P ++ 42 :: (natDigits fs.length ++ [CR, LF])).length
              = P.length + (natDigits fs.length).length + 3 := by
            simp
            omega
          have hrec := DECP_list fs F (P ++ 42 :: (natDigits fs.length ++ [CR, LF]))
            (k2 - ((natDigits fs.length).length + 2)) [] hwf2.2 hmlen
            (by rw [hbufeq]; rw [htake] at hhead; exact hhead)
            (by omega)
          rw [hbufeq, hposeq] at hrec
          exact hrec
  | .Map es, fuel, P, k, hwf, hk, hhead, hfuel => by
    obtain ⟨F, rfl⟩ : ∃ F, fuel = F + 1 := ⟨fuel - 1, by omega⟩
    have hwf2 : es.length < 2 ^ 31 ∧ wfPairs es = true ∧ sortedKeysGT es = true := by
      simp only [wfB, Bool.and_eq_true, decide_eq_true_eq] at hwf
      exact ⟨hwf.1.1, hwf.1.2, hwf.2⟩
    have henc : (Frame.Map es).encode
        = 37 :: (natDigits es.length ++ [CR, LF] ++ encodeEntries es) := by
      simp [Frame.encode]
    rcases Nat.eq_zero_or_pos k with hk0 | hkpos
    · subst hk0
      simp only [List.take_zero, List.append_nil, decodeAux, peek_byte]
      rw [if_neg (by omega)]
    · obtain ⟨k2, rfl⟩ : ∃ k2, k = k2 + 1 := ⟨k - 1, by omega⟩
      have htake : (Frame.Map es).encode.take (k2 + 1)
          = 37 :: ((natDigits es.length ++ [CR, LF] ++ encodeEntries es).take k2) := by
        rw [henc]
        simp
      have hpeek : peek_byte (P ++ (Frame.Map es).encode.take (k2 + 1)) P.length
          = some 37 := by
        rw [htake]
        exact peek_tag P 37 _
      have hk2 : k2 < (natDigits es.length).length + 2 + (encodeEntries es).length := by
        rw [henc] at hk
        simp at hk
        omega
      have hstep : decodeAux (F + 1) (P ++ (Frame.Map es).encode.take (k2 + 1)) P.length
          = decode_map (decodeAux F (P ++ (Frame.Map es).encode.take (k2 + 1)))
              (P ++ (Frame.Map es).encode.take (k2 + 1)) P.length := by
        simp only [decodeAux, hpeek]
        norm_num
      rw [hstep]
      by_cases hc1 : k2 < (natDigits es.length).length + 2
      · have hXtake : (natDigits es.length ++ [CR, LF] ++ encodeEntries es).take k2
            = (natDigits es.length ++ [CR, LF]).take k2 := by
          rw [List.take_append_eq_append_take,
            show k2 - (natDigits es.length ++ [CR, LF]).length = 0 from by
              simp only [List.length_append, List.length_cons, List.length_nil]
              omega]
          simp
        unfold decode_map
        rw [htake, hXtake,
          gs_incomplete_prefix P 37 (natDigits es.length) k2 (natDigits_noCRLF es.length)
            hc1]
      · by_cases hc2 : k2 = (natDigits es.length).length + 2
        · have hXtake : (natDigits es.length ++ [CR, LF] ++ encodeEntries es).take k2
              = natDigits es.length ++ [CR, LF] := by
            rw [List.take_append_eq_append_take,
              List.take_of_length_le (by
                simp only [List.length_append, List.length_cons, List.length_nil]
                omega),
              show k2 - (natDigits es.length ++ [CR, LF]).length = 0 from by
                simp only [List.length_append, List.length_cons, List.length_nil]
                omega]
            simp
          unfold decode_map
          rw [htake, hXtake,
            gs_incomplete_lineEnd P 37 (natDigits es.length) (natDigits_noCRLF es.length)]
        · have hm : (natDigits es.length).length + 2 < k2 := by omega
          have hXtake : (natDigits es.length ++ [CR, LF] ++ encodeEntries es).take k2
              = (natDigits es.length ++ [CR, LF])
                ++ ((encodeEntries es).take (k2 - ((natDigits es.length).length + 2))) := by
            rw [List.take_append_eq_append_take,
              List.take_of_length_le (by
                simp only [List.length_append, List.length_cons, List.length_nil]
                omega)]
            congr 2
            simp only [List.length_append, List.length_cons, List.length_nil]
          have hmlen : k2 - ((natDigits es.length).length + 2)
              < (encodeEntries es).length := by
            omega
          have htne : (encodeEntries es).take (k2 - ((natDigits es.length).length + 2))
              ≠ [] := by
            intro hnil
            have := congrArg List.length hnil
            simp only [List.length_take, List.length_nil] at this
            omega
          have hgs : get_simple_string (P ++ (Frame.Map es).encode.take (k2 + 1)) P.length
              = (.Ok (natDigits es.length),
                 P.length + (natDigits es.length).length + 3) := by
            rw [htake, hXtake,
              show P ++ 37 :: (natDigits es.length ++ [CR, LF]
                  ++ (encodeEntries es).take (k2 - ((natDigits es.length).length + 2)))
                = P ++ (37 :: (natDigits es.length ++ [CR, LF]))
                  ++ (encodeEntries es).take (k2 - ((natDigits es.length).length + 2))
                from by simp]
            exact gs_ok P 37 (natDigits es.length) _ (natDigits_noCRLF es.length) htne
          unfold decode_map
          rw [hgs]
          simp only [parseSigned_natDigits (2 ^ 31) es.length hwf2.1, Int.toNat_ofNat]
          have hbufeq : (P ++ 37 :: (natDigits es.length ++ [CR, LF]))
              ++ (encodeEntries es).take (k2 - ((natDigits es.length).length + 2))
              = P ++ (Frame.Map es).encode.take (k2 + 1) := by
            rw [htake, hXtake]
            simp
          have hposeq : (P ++ 37 :: (natDigits es.length ++ [CR, LF])).length
              = P.length + (natDigits es.length).length + 3 := by
            simp
            omega
          have hrec := DECP_pairs es F (P ++ 37 :: (natDigits es.length ++ [CR, LF]))
            (k2 - ((natDigits es.length).length + 2)) [] hwf2.2.1 hwf2.2.2
            (by intro p _ q hq; exact absurd hq (List.not_mem_nil q)) hmlen
            (by rw [hbufeq]; rw [htake] at hhead; exact hhead)
            (by omega)
          rw [hbufeq, hposeq] at hrec
          exact hrec

/-- The array element loop on a strict prefix of the element encodings. -/
theorem DECP_list : ∀ (fs : List Frame) (fuel : Nat) (P : List Nat) (m : Nat)
      (acc : List Frame),
    wfList fs = true → m < (encodeFrames fs).length →
    (P ++ (encodeFrames fs).take m).getD 0 0 ≠ CR → m < fuel →
    (decodeElems (decodeAux fuel (P ++ (encodeFrames fs).take m)) fs.length
      P.length acc).1 = .Err .Incomplete
  | [], _, _, m, _, _, hm, _, _ => by
    simp [encodeFrames] at hm
  | f :: fs, fuel, P, m, acc, hwf, hm, hhead, hfuel => by
    have hwf2 : wfB f = true ∧ wfList fs = true := by
      simp only [wfList, Bool.and_eq_true] at hwf
      exact hwf
    have hencfs : encodeFrames (f :: fs) = f.encode ++ encodeFrames fs := by
      simp [encodeFrames]
    by_cases hcut : m < f.encode.length
    · have hXtake : (encodeFrames (f :: fs)).take m = f.encode.take m := by
        rw [hencfs, List.take_append_eq_append_take,
          show m - f.encode.length = 0 from by omega]
        simp
      have hchild := DECP_frame f fuel P m hwf2.1 hcut
        (by rw [hXtake] at hhead; exact hhead) hfuel
      rw [hXtake]
      show (decodeElems (decodeAux fuel (P ++ f.encode.take m)) (fs.length + 1)
        P.length acc).1 = .Err .Incomplete
      simp only [decodeElems]
      rcases hres : decodeAux fuel (P ++ f.encode.take m) P.length with ⟨r, p2⟩
      rw [hres] at hchild
      simp only at hchild
      subst hchild
      rfl
    · have hXtake : (encodeFrames (f :: fs)).take m
          = f.encode ++ (encodeFrames fs).take (m - f.encode.length) := by
        rw [hencfs, List.take_append_eq_append_take,
          List.take_of_length_le (by omega)]
      have hm2 : m - f.encode.length < (encodeFrames fs).length := by
        rw [hencfs] at hm
        simp only [List.length_append] at hm
        omega
      have htlen : ((encodeFrames fs).take (m - f.encode.length)).length
          = m - f.encode.length := by
        simp only [List.length_take]
        omega
      have hchild := DEC_frame f fuel P ((encodeFrames fs).take (m - f.encode.length))
        hwf2.1 (by rw [htlen]; omega)
      rw [List.append_assoc P f.encode] at hchild
      rw [← hXtake] at hchild
      rw [hXtake] at hhead
      show (decodeElems (decodeAux fuel (P ++ (encodeFrames (f :: fs)).take m))
        (fs.length + 1) P.length acc).1 = .Err .Incomplete
      rcases hchild with hok | ⟨hnil, hinc⟩
      · have hrec := DECP_list fs fuel (P ++ f.encode) (m - f.encode.length) (acc ++ [f])
          hwf2.2 hm2
          (by rw [show (P ++ f.encode) ++ (encodeFrames fs).take (m - f.encode.length)
              = P ++ (f.encode ++ (encodeFrames fs).take (m - f.encode.length)) from by
              simp]
              exact hhead)
          (by omega)
        have hbufeq : (P ++ f.encode) ++ (encodeFrames fs).take (m - f.encode.length)
            = P ++ (encodeFrames (f :: fs)).take m := by
          rw [hXtake]
          simp
        have hposeq : (P ++ f.encode).length = P.length + f.encode.length := by simp
        rw [hbufeq, hposeq] at hrec
        simp only [decodeElems, hok]
        exact hrec
      · simp only [decodeElems]
        rcases hres : decodeAux fuel (P ++ (encodeFrames (f :: fs)).take m) P.length
          with ⟨r, p2⟩
        rw [hres] at hinc
        simp only at hinc
        subst hinc
        rfl

/-- The map entry loop on a strict prefix of the entry encodings. -/
theorem DECP_pairs : ∀ (es : List (Frame × Frame)) (fuel : Nat) (P : List Nat) (m : Nat)
      (acc : List (Frame × Frame)),
    wfPairs es = true → sortedKeysGT es = true →
    (∀ p ∈ es, ∀ q ∈ acc, frameCmp p.1 q.1 = some Ordering.gt) →
    m < (encodeEntries es).length →
    (P ++ (encodeEntries es).take m).getD 0 0 ≠ CR → m < fuel →
    (decodeEntries (decodeAux fuel (P ++ (encodeEntries es).take m)) es.length
      P.length acc).1 = .Err .Incomplete
  | [], _, _, m, _, _, _, _, hm, _, _ => by
    simp [encodeEntries] at hm
  | (kf, vf) :: es, fuel, P, m, acc, hwf, hsorted, hacc, hm, hhead, hfuel => by
    have hwf2 : wfB kf = true ∧ wfB vf = true ∧ wfPairs es = true := by
      simp only [wfPairs, Bool.and_eq_true] at hwf
      exact ⟨hwf.1.1, hwf.1.2, hwf.2⟩
    have hsort2 : (∀ p ∈ es, frameCmp p.1 kf = some Ordering.gt)
        ∧ sortedKeysGT es = true := by
      simp only [sortedKeysGT, Bool.and_eq_true, List.all_eq_true,
        decide_eq_true_eq] at hsorted
      exact hsorted
    have hences : encodeEntries ((kf, vf) :: es)
        = kf.encode ++ (vf.encode ++ encodeEntries es) := by
      simp [encodeEntries]
    by_cases hc1 : m < kf.encode.length
    · have hXtake : (encodeEntries ((kf, vf) :: es)).take m = kf.encode.take m := by
        rw [hences, List.take_append_eq_append_take,
          show m - kf.encode.length = 0 from by omega]
        simp
      have hchild := DECP_frame kf fuel P m hwf2.1 hc1
        (by rw [hXtake] at hhead; exact hhead) hfuel
      rw [hXtake]
      show (decodeEntries (decodeAux fuel (P ++ kf.encode.take m)) (es.length + 1)
        P.length acc).1 = .Err .Incomplete
      simp only [decodeEntries]
      rcases hres : decodeAux fuel (P ++ kf.encode.take m) P.length with ⟨r, p2⟩
      rw [hres] at hchild
      simp only at hchild
      subst hchild
      rfl
    · by_cases hc2 : m < kf.encode.length + vf.encode.length
      · have hXtake : (encodeEntries ((kf, vf) :: es)).take m
            = kf.encode ++ vf.encode.take (m - kf.encode.length) := by
          rw [hences, List.take_append_eq_append_take,
            List.take_of_length_le (by omega), List.take_append_eq_append_take,
            show m - kf.encode.length - vf.encode.length = 0 from by omega]
          simp
        have hm2 : m - kf.encode.length < vf.encode.length := by omega
        have htlen : (vf.encode.take (m - kf.encode.length)).length
            = m - kf.encode.length := by
          simp only [List.length_take]
          omega
        have hkey := DEC_frame kf fuel P (vf.encode.take (m - kf.encode.length))
          hwf2.1 (by rw [htlen]; omega)
        rw [List.append_assoc P kf.encode] at hkey
        rw [← hXtake] at hkey
        rw [hXtake] at hhead
        show (decodeEntries (decodeAux fuel
            (P ++ (encodeEntries ((kf, vf) :: es)).take m)) (es.length + 1)
          P.length acc).1 = .Err .Incomplete
        rcases hkey with hok | ⟨hnil, hinc⟩
        · have hval := DECP_frame vf fuel (P ++ kf.encode) (m - kf.encode.length)
            hwf2.2.1 hm2
            (by rw [show (P ++ kf.encode) ++ vf.encode.take (m - kf.encode.length)
                = P ++ (kf.encode ++ vf.encode.take (m - kf.encode.length)) from by simp]
                exact hhead)
            (by omega)
          have hbufeq : (P ++ kf.encode) ++ vf.encode.take (m - kf.encode.length)
              = P ++ (encodeEntries ((kf, vf) :: es)).take m := by
            rw [hXtake]
            simp
          have hposeq : (P ++ kf.encode).length = P.length + kf.encode.length := by simp
          rw [hbufeq, hposeq] at hval
          simp only [decodeEntries, hok]
          rcases hres : decodeAux fuel (P ++ (encodeEntries ((kf, vf) :: es)).take m)
            (P.length + kf.encode.length) with ⟨r, p2⟩
          rw [hres] at hval
          simp only at hval
          subst hval
          rfl
        · simp only [decodeEntries]
          rcases hres : decodeAux fuel (P ++ (encodeEntries ((kf, vf) :: es)).take m)
            P.length with ⟨r, p2⟩
          rw [hres] at hinc
          simp only at hinc
          subst hinc
          rfl
      · have hXtake : (encodeEntries ((kf, vf) :: es)).take m
            = kf.encode ++ (vf.encode
              ++ (encodeEntries es).take (m - kf.encode.length - vf.encode.length)) := by
          rw [hences, List.take_append_eq_append_take,
            List.take_of_length_le (by omega), List.take_append_eq_append_take,
            List.take_of_length_le (by omega)]
        have hm3 : m - kf.encode.length - vf.encode.length
            < (encodeEntries es).length := by
          rw [hences] at hm
          simp only [List.length_append] at hm
          omega
        have htlen : ((encodeEntries es).take
            (m - kf.encode.length - vf.encode.length)).length
            = m - kf.encode.length - vf.encode.length := by
          simp only [List.length_take]
          omega
        have hkey := DEC_frame kf fuel P (vf.encode
            ++ (encodeEntries es).take (m - kf.encode.length - vf.encode.length))
          hwf2.1 (by simp only [List.length_append]; rw [htlen]; omega)
        rw [List.append_assoc P kf.encode] at hkey
        rw [← hXtake] at hkey
        have hkeyok : decodeAux fuel (P ++ (encodeEntries ((kf, vf) :: es)).take m)
            P.length = (.Ok kf, P.length + kf.encode.length) := by
          rcases hkey with h | ⟨hnil, _⟩
          · exact h
          · exact absurd (List.append_eq_nil.1 hnil).1 (encode_ne_nil vf)
        have hval := DEC_frame vf fuel (P ++ kf.encode)
          ((encodeEntries es).take (m - kf.encode.length - vf.encode.length))
          hwf2.2.1 (by rw [htlen]; omega)
        have hbufeq2 : (P ++ kf.encode) ++ vf.encode
            ++ (encodeEntries es).take (m - kf.encode.length - vf.encode.length)
            = P ++ (encodeEntries ((kf, vf) :: es)).take m := by
          rw [hXtake]
          simp
        have hposeq : (P ++ kf.encode).length = P.length + kf.encode.length := by simp
        rw [hbufeq2, hposeq] at hval
        rw [hXtake] at hhead
        show (decodeEntries (decodeAux fuel
            (P ++ (encodeEntries ((kf, vf) :: es)).take m)) (es.length + 1)
          P.length acc).1 = .Err .Incomplete
        have hins : btreeInsert acc kf vf = some (acc ++ [(kf, vf)]) :=
          btreeInsert_append acc kf vf
            (fun q hq => hacc (kf, vf) (List.mem_cons_self _ _) q hq)
        rcases hval with hvok | ⟨hnil, hvinc⟩
        · have hrec := DECP_pairs es fuel (P ++ kf.encode ++ vf.encode)
            (m - kf.encode.length - vf.encode.length) (acc ++ [(kf, vf)])
            hwf2.2.2 hsort2.2
            (by
              intro p hp q hq
              rcases List.mem_append.1 hq with hq | hq
              · exact hacc p (List.mem_cons_of_mem _ hp) q hq
              · have : q = (kf, vf) := by simpa using hq
                subst this
                exact hsort2.1 p hp)
            hm3
            (by rw [show (P ++ kf.encode ++ vf.encode)
                ++ (encodeEntries es).take (m - kf.encode.length - vf.encode.length)
                = P ++ (kf.encode ++ (vf.encode ++ (encodeEntries es).take
                    (m - kf.encode.length - vf.encode.length))) from by simp]
                exact hhead)
            (by omega)
          have hbufeq3 : (P ++ kf.encode ++ vf.encode)
              ++ (encodeEntries es).take (m - kf.encode.length - vf.encode.length)
              = P ++ (encodeEntries ((kf, vf) :: es)).take m := by
            rw [hXtake]
            simp
          have hposeq3 : (P ++ kf.encode ++ vf.encode).length
              = P.length + kf.encode.length + vf.encode.length := by
            simp only [List.length_append]
          rw [hbufeq3, hposeq3] at hrec
          simp only [decodeEntries, hkeyok, hvok, hins]
          exact hrec
        · simp only [decodeEntries, hkeyok]
          rcases hres : decodeAux fuel (P ++ (encodeEntries ((kf, vf) :: es)).take m)
            (P.length + kf.encode.length) with ⟨r, p2⟩
          rw [hres] at hvinc
          simp only at hvinc
          subst hvinc
          rfl

end

theorem encode_head_ne_CR (f : Frame) : f.encode.getD 0 0 ≠ CR := by
  cases f <;> simp [Frame.encode, CR]

/-- C3: decoding any STRICT prefix of the encoding of a well-formed frame
returns `Err Incomplete`.  (The other half of the claim — that the cursor
is also left at the start position — is refuted separately: for Array and
Map prefixes the cursor may be advanced past the decoded elements.) -/
theorem decode_strict_prefix_incomplete (f : Frame) (k : Nat)
    (hwf : wfB f = true) (hk : k < f.encode.length) :
    (decode (f.encode.take k) 0).1 = .Err .Incomplete := by
  have hhead : (([] : List Nat) ++ f.encode.take k).getD 0 0 ≠ CR := by
    rcases Nat.eq_zero_or_pos k with h0 | hpos
    · subst h0
      simp [CR]
    · rw [List.nil_append, getD_take f.encode k 0 hpos]
      exact encode_head_ne_CR f
  have h := DECP_frame f ((f.encode.take k).length + 1) [] k hwf hk hhead
    (by simp only [List.length_take]; omega)
  simpa [decode] using h

/-- Witness for C3: a two-byte strict prefix of `+a\r\n` yields Incomplete. -/
theorem decode_strict_prefix_incomplete_witness :
    wfB (Frame.Simple [97]) = true ∧ 2 < (Frame.Simple [97]).encode.length ∧
    (decode ((Frame.Simple [97]).encode.take 2) 0).1 = .Err .Incomplete :=
  ⟨by decide, by decide,
   decode_strict_prefix_incomplete (Frame.Simple [97]) 2 (by decide) (by decide)⟩

theorem getD_set_self {α : Type} (l : List α) (i : Nat) (x d : α) (h : i < l.length) :
    (l.set i x).getD i d = x := by
  rw [List.getD_eq_getElem (l.set i x) d (by simp [h]), List.getElem_set_self]

theorem getD_set_ne {α : Type} (l : List α) (i j : Nat) (x d : α) (h : i ≠ j) :
    (l.set i x).getD j d = l.getD j d := by
  simp [List.getD, List.getElem?_set_ne h]

theorem getD_mem {α : Type} (l : List α) (i : Nat) (d : α) (h : i < l.length) :
    l.getD i d ∈ l := by
  rw [List.getD_eq_getElem l d h]
  exact List.getElem_mem h

theorem sum_map_set {α : Type} (f : α → Nat) (d : α) :
    ∀ (l : List α) (i : Nat) (x : α), i < l.length →
    ((l.set i x).map f).sum + f (l.getD i d) = (l.map f).sum + f x
  | [], i, x, h => by simp at h
  | a :: l, 0, x, h => by
    simp
    omega
  | a :: l, i + 1, x, h => by
    have ih := sum_map_set f d l i x (by simpa using h)
    simp only [List.set, List.map_cons, List.sum_cons, List.getD_cons_succ]
    omega

theorem trailingZerosGo_pow2 : ∀ (j fuel : Nat), 2 ^ j ≤ fuel →
    trailingZerosGo fuel (2 ^ j) = j
  | j, 0, h => by
    exfalso
    have : 0 < 2 ^ j := pow_pos (by norm_num) j
    omega
  | 0, fuel + 1, _ => by simp [trailingZerosGo]
  | j + 1, fuel + 1, h => by
    have hpos : 0 < 2 ^ j := pow_pos (by norm_num) j
    have hmod : 2 ^ (j + 1) % 2 = 0 := by
      rw [pow_succ]
      simp [Nat.mul_mod_left]
    have hdiv : 2 ^ (j + 1) / 2 = 2 ^ j := by
      rw [pow_succ]
      omega
    have hne : 2 ^ (j + 1) ≠ 0 := by positivity
    rw [trailingZerosGo, if_neg hne, if_neg (by omega), hdiv,
      trailingZerosGo_pow2 j fuel (by rw [pow_succ] at h; omega)]
    omega

theorem trailing_zeros_pow2 (j : Nat) : trailing_zeros (2 ^ j) = j :=
  trailingZerosGo_pow2 j (2 ^ j + 1) (by omega)

theorem isPow2Go_sound : ∀ (fuel n : Nat), n ≤ fuel → isPow2Go fuel n = true →
    ∃ j, n = 2 ^ j
  | 0, n, hle, h => by simp [isPow2Go] at h
  | fuel + 1, n, hle, h => by
    rw [isPow2Go] at h
    by_cases h0 : n = 0
    · rw [if_pos h0] at h
      exact absurd h (by simp)
    · rw [if_neg h0] at h
      by_cases h1 : n = 1
      · exact ⟨0, by simpa using h1⟩
      · rw [if_neg h1] at h
        by_cases h2 : n % 2 = 1
        · rw [if_pos h2] at h
          exact absurd h (by simp)
        · rw [if_neg h2] at h
          obtain ⟨j, hj⟩ := isPow2Go_sound fuel (n / 2) (by omega) h
          exact ⟨j + 1, by rw [pow_succ]; omega⟩

theorem is_power_of_two_sound (n : Nat) (h : is_power_of_two n = true) :
    ∃ j, n = 2 ^ j :=
  isPow2Go_sound (n + 1) n (by omega) h

theorem get_shard_index_lt (hash : List Nat → Nat) (j : Nat) (key : List Nat) :
    get_shard_index hash (2 ^ j) key < 2 ^ j := by
  have h1 : Nat.shiftLeft 1 (trailing_zeros (2 ^ j)) = 2 ^ j := by
    rw [trailing_zeros_pow2]
    show 1 <<< j = 2 ^ j
    rw [Nat.shiftLeft_eq]
    omega
  show Nat.land (hash key) (Nat.shiftLeft 1 (trailing_zeros (2 ^ j)) - 1) < 2 ^ j
  rw [h1]
  exact Nat.and_lt_two_pow (hash key) (by have : 0 < 2 ^ j := pow_pos (by norm_num) j; omega)

theorem bucketGet_cons (p : List Nat × List Nat) (b : Bucket) (k : List Nat) :
    bucketGet (p :: b) k = if p.1 == k then some p.2 else bucketGet b k := by
  cases hb : p.1 == k <;> simp [bucketGet, List.find?, hb]

theorem bucketGet_none_iff (b : Bucket) (k : List Nat) :
    bucketGet b k = none ↔ ∀ p ∈ b, p.1 ≠ k := by
  simp [bucketGet, List.find?_eq_none]

theorem bucketGet_filter_self (b : Bucket) (k : List Nat) :
    bucketGet (b.filter (fun p => p.1 != k)) k = none := by
  rw [bucketGet_none_iff]
  intro p hp
  simpa using (List.mem_filter.1 hp).2

theorem bucketGet_filter_ne (b : Bucket) (k k2 : List Nat) (h : k2 ≠ k) :
    bucketGet (b.filter (fun p => p.1 != k)) k2 = bucketGet b k2 := by
  induction b with
  | nil => rfl
  | cons p b ih =>
    rw [List.filter_cons, bucketGet_cons]
    by_cases hpk : p.1 = k
    · rw [if_neg (by simp [hpk]), if_neg (by simp [hpk]; exact fun hh => h hh.symm), ih]
    · rw [if_pos (by simpa using hpk), bucketGet_cons, ih]

theorem bucketGet_remove (b : Bucket) (k k2 : List Nat) :
    bucketGet (remove_entry b k).2 k2 = if k2 = k then none else bucketGet b k2 := by
  rcases hg : bucketGet b k with _ | v
  · by_cases hk : k2 = k
    · subst hk
      simp [remove_entry, hg]
    · simp [remove_entry, hg, hk]
  · by_cases hk : k2 = k
    · subst hk
      simp [remove_entry, hg, bucketGet_filter_self]
    · simp [remove_entry, hg, hk, bucketGet_filter_ne b k k2 hk]

theorem remove_entry_count (b : Bucket) (k : List Nat) :
    (remove_entry b k).1 = if (bucketGet b k).isSome then 1 else 0 := by
  rcases hg : bucketGet b k with _ | v <;> simp [remove_entry, hg]

theorem filter_ne_length (b : Bucket) (k : List Nat)
    (hnd : (b.map Prod.fst).Nodup) (hg : (bucketGet b k).isSome) :
    (b.filter (fun p => p.1 != k)).length + 1 = b.length := by
  induction b with
  | nil => simp [bucketGet] at hg
  | cons p b ih =>
    rw [bucketGet_cons] at hg
    rw [List.map_cons, List.nodup_cons] at hnd
    by_cases hpk : p.1 = k
    · rw [List.filter_cons, if_neg (by simp [hpk])]
      have hfb : b.filter (fun p => p.1 != k) = b := by
        rw [List.filter_eq_self]
        intro q hq
        simp only [bne_iff_ne, ne_eq, decide_eq_true_eq]
        intro hqk
        exact hnd.1 (by rw [← hpk] at hqk; rw [← hqk]; exact List.mem_map_of_mem Prod.fst hq)
      rw [hfb]
      simp
    · rw [if_neg (by simpa using hpk)] at hg
      rw [List.filter_cons, if_pos (by simpa using hpk)]
      simp only [List.length_cons]
      have := ih hnd.2 hg
      omega

theorem remove_entry_len (b : Bucket) (k : List Nat)
    (hnd : (b.map Prod.fst).Nodup) :
    (remove_entry b k).2.length + (remove_entry b k).1 = b.length := by
  rcases hg : bucketGet b k with _ | v
  · simp [remove_entry, hg]
  · have := filter_ne_length b k hnd (by simp [hg])
    simp only [remove_entry, hg]
    omega

theorem remove_entry_nodup (b : Bucket) (k : List Nat)
    (hnd : (b.map Prod.fst).Nodup) :
    ((remove_entry b k).2.map Prod.fst).Nodup := by
  rcases hg : bucketGet b k with _ | v
  · simpa [remove_entry, hg] using hnd
  · simp only [remove_entry, hg]
    exact hnd.sublist ((List.filter_sublist b).map Prod.fst)

theorem removeAll_nil_bucket : ∀ (L : List (List Nat)), removeAll [] L = (0, [])
  | [] => rfl
  | k :: L => by
    simp [removeAll, remove_entry, bucketGet, removeAll_nil_bucket L]

theorem removeAll_get : ∀ (L : List (List Nat)) (b : Bucket) (k2 : List Nat),
    bucketGet (removeAll b L).2 k2 = if k2 ∈ L then none else bucketGet b k2
  | [], b, k2 => by simp [removeAll]
  | k :: L, b, k2 => by
    simp only [removeAll]
    rw [removeAll_get L]
    by_cases h2 : k2 ∈ k :: L
    · rw [if_pos h2]
      rcases List.mem_cons.1 h2 with h | h
      · by_cases hL : k2 ∈ L
        · rw [if_pos hL]
        · rw [if_neg hL, bucketGet_remove, if_pos h]
      · rw [if_pos h]
    · rw [if_neg h2, if_neg (fun hL => h2 (List.mem_cons_of_mem _ hL)),
        bucketGet_remove, if_neg (fun hk : k2 = k => h2 (hk ▸ List.mem_cons_self _ _))]

theorem removeAll_count : ∀ (L : List (List Nat)) (b : Bucket), L.Nodup →
    (removeAll b L).1 = (L.filter (fun k => (bucketGet b k).isSome)).length
  | [], b, _ => by simp [removeAll]
  | k :: L, b, hnd => by
    rw [List.nodup_cons] at hnd
    simp only [removeAll]
    rw [removeAll_count L _ hnd.2]
    have hfc : L.filter (fun k2 => (bucketGet (remove_entry b k).2 k2).isSome)
        = L.filter (fun k2 => (bucketGet b k2).isSome) := by
      apply List.filter_congr
      intro k2 hk2
      rw [bucketGet_remove, if_neg (fun h : k2 = k => hnd.1 (h ▸ hk2))]
    rw [hfc, List.filter_cons, remove_entry_count]
    by_cases hp : (bucketGet b k).isSome
    · simp [hp]
      omega
    · simp [hp]

theorem removeAll_len : ∀ (L : List (List Nat)) (b : Bucket),
    (b.map Prod.fst).Nodup →
    (removeAll b L).2.length + (removeAll b L).1 = b.length
      ∧ ((removeAll b L).2.map Prod.fst).Nodup
  | [], b, hnd => by simpa [removeAll] using hnd
  | k :: L, b, hnd => by
    simp only [removeAll]
    have h1 := remove_entry_len b k hnd
    have h2 := remove_entry_nodup b k hnd
    have ih := removeAll_len L (remove_entry b k).2 h2
    exact ⟨by have := ih.1; omega, ih.2⟩

theorem sumCounts_append_single (l : List (Nat × Nat)) (i c : Nat) :
    sumCounts (l ++ [(i, c)]) = sumCounts l + c := by
  simp [sumCounts]

theorem del_entries_eq (hash : List Nat → Nat) (m : CMap) (keys : List (List Nat)) :
    m.del_entries hash keys
      = (List.range m.shard_count).foldl (delStep hash m.shard_count keys) (m, []) :=
  rfl

theorem delete_shard_entries_eq_of_lt (m : CMap) (i : Nat) (ks : List (List Nat))
    (hi : i < m.shard_count) :
    m.delete_shard_entries i ks
      = ({ m with
            shards := m.shards.set i (removeAll (m.shards.getD i []) ks).2,
            size := m.size - (removeAll (m.shards.getD i []) ks).1 },
         (removeAll (m.shards.getD i []) ks).1) := by
  unfold CMap.delete_shard_entries
  rw [if_pos hi]

theorem delete_shard_entries_eq_of_ge (m : CMap) (i : Nat) (ks : List (List Nat))
    (hi : ¬ i < m.shard_count) :
    m.delete_shard_entries i ks = (m, 0) := by
  unfold CMap.delete_shard_entries
  rw [if_neg hi]

theorem delete_shard_entries_inv (m : CMap) (i : Nat) (ks : List (List Nat))
    (hinv : CMapInv m) :
    CMapInv (m.delete_shard_entries i ks).1
      ∧ (m.delete_shard_entries i ks).1.size + (m.delete_shard_entries i ks).2 = m.size
      ∧ keyCount (m.delete_shard_entries i ks).1 + (m.delete_shard_entries i ks).2
        = keyCount m := by
  obtain ⟨hpow, hlen, hsize, hnodup⟩ := hinv
  by_cases hi : i < m.shard_count
  · rw [delete_shard_entries_eq_of_lt m i ks hi]
    have hilen : i < m.shards.length := by omega
    have hbmem : m.shards.getD i [] ∈ m.shards := getD_mem _ _ _ hilen
    have hrm := removeAll_len ks (m.shards.getD i []) (hnodup _ hbmem)
    have hble : (m.shards.getD i []).length ≤ keyCount m :=
      List.single_le_sum (fun _ _ => Nat.zero_le _) _
        (List.mem_map_of_mem List.length hbmem)
    have hsum := sum_map_set List.length [] m.shards i
      (removeAll (m.shards.getD i []) ks).2 hilen
    have hkc : keyCount m = (List.map List.length m.shards).sum := rfl
    have hr1 := hrm.1
    refine ⟨⟨hpow, by simpa using hlen, ?_, ?_⟩, ?_, ?_⟩
    · show m.size - (removeAll (m.shards.getD i []) ks).1
        = ((m.shards.set i (removeAll (m.shards.getD i []) ks).2).map List.length).sum
      omega
    · intro b hb
      rcases List.mem_or_eq_of_mem_set hb with hb | hb
      · exact hnodup b hb
      · rw [hb]
        exact hrm.2
    · show m.size - (removeAll (m.shards.getD i []) ks).1
        + (removeAll (m.shards.getD i []) ks).1 = m.size
      omega
    · show ((m.shards.set i (removeAll (m.shards.getD i []) ks).2).map List.length).sum
        + (removeAll (m.shards.getD i []) ks).1 = keyCount m
      omega
  · rw [delete_shard_entries_eq_of_ge m i ks hi]
    exact ⟨⟨hpow, hlen, hsize, hnodup⟩, by simp, by simp [keyCount]⟩

theorem delFold_inv (hash : List Nat → Nat) (keys : List (List Nat)) (S : Nat) :
    ∀ (ids : List Nat) (c : CMap) (accl : List (Nat × Nat)), CMapInv c →
    CMapInv ((ids.foldl (delStep hash S keys) (c, accl)).1)
    ∧ ((ids.foldl (delStep hash S keys) (c, accl)).1.size
        + sumCounts ((ids.foldl (delStep hash S keys) (c, accl)).2)
      = c.size + sumCounts accl)
    ∧ (keyCount ((ids.foldl (delStep hash S keys) (c, accl)).1)
        + sumCounts ((ids.foldl (delStep hash S keys) (c, accl)).2)
      = keyCount c + sumCounts accl)
  | [], c, accl, hinv => ⟨hinv, rfl, rfl⟩
  | i :: ids, c, accl, hinv => by
    rw [List.foldl_cons]
    have hstep := delete_shard_entries_inv c i
      (get_shard_key_mapping hash S keys i) hinv
    have ih := delFold_inv hash keys S ids
      (c.delete_shard_entries i (get_shard_key_mapping hash S keys i)).1
      (if (c.delete_shard_entries i (get_shard_key_mapping hash S keys i)).2 > 0
        then accl ++ [(i, (c.delete_shard_entries i
          (get_shard_key_mapping hash S keys i)).2)]
        else accl)
      hstep.1
    have hstepEq : delStep hash S keys (c, accl) i
        = ((c.delete_shard_entries i (get_shard_key_mapping hash S keys i)).1,
           if (c.delete_shard_entries i (get_shard_key_mapping hash S keys i)).2 > 0
            then accl ++ [(i, (c.delete_shard_entries i
              (get_shard_key_mapping hash S keys i)).2)]
            else accl) := rfl
    rw [hstepEq]
    have haccl : sumCounts
        (if (c.delete_shard_entries i (get_shard_key_mapping hash S keys i)).2 > 0
          then accl ++ [(i, (c.delete_shard_entries i
            (get_shard_key_mapping hash S keys i)).2)]
          else accl)
        = sumCounts accl
          + (c.delete_shard_entries i (get_shard_key_mapping hash S keys i)).2 := by
      split
      · rw [sumCounts_append_single]
      · omega
    refine ⟨ih.1, ?_, ?_⟩
    · have h1 := ih.2.1
      rw [haccl] at h1
      have h2 := hstep.2.1
      omega
    · have h1 := ih.2.2
      rw [haccl] at h1
      have h2 := hstep.2.2
      omega

theorem CMapInv_new (sc bs : Nat) (m0 : CMap) (hnew : CMap.new sc bs = some m0) :
    CMapInv m0 := by
  unfold CMap.new at hnew
  by_cases hp : is_power_of_two sc
  · rw [if_pos hp] at hnew
    obtain rfl := (Option.some_inj.1 hnew).symm
    refine ⟨is_power_of_two_sound sc hp, by simp, ?_, ?_⟩
    · simp [keyCount, List.map_replicate]
    · intro b hb
      rw [List.eq_of_mem_replicate hb]
      simp
  · rw [if_neg hp] at hnew
    exact absurd hnew (by simp)

theorem add_entry_prev (b : Bucket) (k v : List Nat) :
    (add_entry_or_update b k v).1 = bucketGet b k := by
  rcases hg : bucketGet b k with _ | old <;> simp [add_entry_or_update, hg]

theorem replace_keys (b : Bucket) (k v : List Nat) :
    ((b.map (fun p => if p.1 == k then (k, v) else p)).map Prod.fst)
      = b.map Prod.fst := by
  rw [List.map_map]
  apply List.map_congr_left
  intro p _
  by_cases h : p.1 = k <;> simp [h]

theorem set_kv_size (hash : List Nat → Nat) (m : CMap) (k v : List Nat) :
    (CMap.set_kv hash m k v).size
      = if (CMap.get_value hash m k).isSome then m.size else m.size + 1 := by
  show (if (add_entry_or_update
      (m.shards.getD (get_shard_index hash m.shard_count k) []) k v).1.isNone
    then m.size + 1 else m.size)
    = if (CMap.get_value hash m k).isSome then m.size else m.size + 1
  rw [add_entry_prev]
  unfold CMap.get_value
  rcases hg : bucketGet (m.shards.getD (get_shard_index hash m.shard_count k) []) k
    with _ | old <;> simp [hg]

theorem CMapInv_set (hash : List Nat → Nat) (m : CMap) (k v : List Nat)
    (hinv : CMapInv m) : CMapInv (CMap.set_kv hash m k v) := by
  obtain ⟨⟨j, hj⟩, hlen, hsize, hnodup⟩ := hinv
  have hkc : keyCount m = (List.map List.length m.shards).sum := rfl
  have hidx : get_shard_index hash m.shard_count k < m.shard_count := by
    rw [hj]
    exact get_shard_index_lt hash j k
  have hilen : get_shard_index hash m.shard_count k < m.shards.length := by omega
  have hbmem : m.shards.getD (get_shard_index hash m.shard_count k) [] ∈ m.shards :=
    getD_mem _ _ _ hilen
  have hsum := sum_map_set List.length [] m.shards
    (get_shard_index hash m.shard_count k)
    (add_entry_or_update (m.shards.getD (get_shard_index hash m.shard_count k) []) k v).2
    hilen
  refine ⟨⟨j, hj⟩, ?_, ?_, ?_⟩
  · show (m.shards.set (get_shard_index hash m.shard_count k)
      (add_entry_or_update
        (m.shards.getD (get_shard_index hash m.shard_count k) []) k v).2).length
      = m.shard_count
    simpa using hlen
  · show (if (add_entry_or_update
        (m.shards.getD (get_shard_index hash m.shard_count k) []) k v).1.isNone
      then m.size + 1 else m.size)
      = keyCount { m with
          shards := m.shards.set (get_shard_index hash m.shard_count k)
            (add_entry_or_update
              (m.shards.getD (get_shard_index hash m.shard_count k) []) k v).2,
          size := if (add_entry_or_update
              (m.shards.getD (get_shard_index hash m.shard_count k) []) k v).1.isNone
            then m.size + 1 else m.size }
    rw [add_entry_prev]
    unfold keyCount
    rcases hg : bucketGet (m.shards.getD (get_shard_index hash m.shard_count k) []) k
      with _ | old
    · have hb2 : (add_entry_or_update
          (m.shards.getD (get_shard_index hash m.shard_count k) []) k v).2
          = m.shards.getD (get_shard_index hash m.shard_count k) [] ++ [(k, v)] := by
        unfold add_entry_or_update
        rw [hg]
      rw [hb2] at hsum
      simp only [hg, Option.isNone_none, if_pos]
      rw [hb2]
      simp only [List.length_append, List.length_cons, List.length_nil] at hsum
      omega
    · have hb2 : (add_entry_or_update
          (m.shards.getD (get_shard_index hash m.shard_count k) []) k v).2
          = (m.shards.getD (get_shard_index hash m.shard_count k) []).map
              (fun p => if p.1 == k then (k, v) else p) := by
        unfold add_entry_or_update
        rw [hg]
      rw [hb2] at hsum
      simp only [hg, Option.isNone_some, Bool.false_eq_true, if_false]
      rw [hb2]
      simp only [List.length_map] at hsum
      omega
  · intro b hb
    rcases List.mem_or_eq_of_mem_set hb with hb | hb
    · exact hnodup b hb
    · rw [hb]
      rcases hg : bucketGet (m.shards.getD (get_shard_index hash m.shard_count k) []) k
        with _ | old
      · have hb2 : (add_entry_or_update
            (m.shards.getD (get_shard_index hash m.shard_count k) []) k v).2
            = m.shards.getD (get_shard_index hash m.shard_count k) [] ++ [(k, v)] := by
          unfold add_entry_or_update
          rw [hg]
        rw [hb2, List.map_append, List.nodup_append]
        have hk : k ∉ (m.shards.getD (get_shard_index hash m.shard_count k) []).map
            Prod.fst := by
          intro hkmem
          obtain ⟨p, hp, hpk⟩ := List.mem_map.1 hkmem
          exact (bucketGet_none_iff _ _).1 hg p hp hpk
        refine ⟨hnodup _ hbmem, by simp, ?_⟩
        intro x hx hxk
        simp at hxk
        subst hxk
        exact hk hx
      · have hb2 : (add_entry_or_update
            (m.shards.getD (get_shard_index hash m.shard_count k) []) k v).2
            = (m.shards.getD (get_shard_index hash m.shard_count k) []).map
                (fun p => if p.1 == k then (k, v) else p) := by
          unfold add_entry_or_update
          rw [hg]
        rw [hb2, replace_keys]
        exact hnodup _ hbmem

theorem CMapInv_del (hash : List Nat → Nat) (m : CMap) (ks : List (List Nat))
    (hinv : CMapInv m) :
    CMapInv (m.del_entries hash ks).1
    ∧ (m.del_entries hash ks).1.size + sumCounts (m.del_entries hash ks).2 = m.size
    ∧ keyCount (m.del_entries hash ks).1 + sumCounts (m.del_entries hash ks).2
      = keyCount m := by
  rw [del_entries_eq]
  have h := delFold_inv hash ks m.shard_count (List.range m.shard_count) m [] hinv
  simpa [sumCounts] using h

theorem delFold_contents (hash : List Nat → Nat) (keys : List (List Nat)) (m0 : CMap) :
    ∀ (ids : List Nat) (c : CMap) (accl : List (Nat × Nat)),
    c.shard_count = m0.shard_count →
    c.shards.length = m0.shards.length →
    (∀ i ∈ ids, i < m0.shard_count) →
    (∀ i ∈ ids, c.shards.getD i [] = m0.shards.getD i []) →
    ids.Nodup →
    ((ids.foldl (delStep hash m0.shard_count keys) (c, accl)).1.shard_count
        = m0.shard_count)
    ∧ ((ids.foldl (delStep hash m0.shard_count keys) (c, accl)).1.shards.length
        = m0.shards.length)
    ∧ (∀ j, j ∉ ids →
        (ids.foldl (delStep hash m0.shard_count keys) (c, accl)).1.shards.getD j []
          = c.shards.getD j [])
    ∧ (∀ i ∈ ids,
        (ids.foldl (delStep hash m0.shard_count keys) (c, accl)).1.shards.getD i []
          = (removeAll (m0.shards.getD i [])
              (get_shard_key_mapping hash m0.shard_count keys i)).2)
    ∧ sumCounts ((ids.foldl (delStep hash m0.shard_count keys) (c, accl)).2)
        = sumCounts accl
          + (ids.map (fun i =>
              (removeAll (m0.shards.getD i [])
                (get_shard_key_mapping hash m0.shard_count keys i)).1)).sum
  | [], c, accl, hsc, hclen, _, _, _ =>
    ⟨hsc, hclen, fun _ _ => rfl, fun i hi => absurd hi (List.not_mem_nil i),
     by simp⟩
  | i :: ids, c, accl, hsc, hclen, hlt, hagree, hnd => by
    rw [List.foldl_cons]
    rw [List.nodup_cons] at hnd
    have hiS : i < m0.shard_count := hlt i (List.mem_cons_self _ _)
    have hic : i < c.shard_count := by omega
    have hdel := delete_shard_entries_eq_of_lt c i
      (get_shard_key_mapping hash m0.shard_count keys i) hic
    have hragree : removeAll (c.shards.getD i [])
        (get_shard_key_mapping hash m0.shard_count keys i)
        = removeAll (m0.shards.getD i [])
            (get_shard_key_mapping hash m0.shard_count keys i) := by
      rw [hagree i (List.mem_cons_self _ _)]
    have hstepEq : delStep hash m0.shard_count keys (c, accl) i
        = ({ c with
              shards := c.shards.set i (removeAll (m0.shards.getD i [])
                (get_shard_key_mapping hash m0.shard_count keys i)).2,
              size := c.size - (removeAll (m0.shards.getD i [])
                (get_shard_key_mapping hash m0.shard_count keys i)).1 },
           if (removeAll (m0.shards.getD i [])
                (get_shard_key_mapping hash m0.shard_count keys i)).1 > 0
            then accl ++ [(i, (removeAll (m0.shards.getD i [])
              (get_shard_key_mapping hash m0.shard_count keys i)).1)]
            else accl) := by
      show ((c.delete_shard_entries i
          (get_shard_key_mapping hash m0.shard_count keys i)).1,
        if (c.delete_shard_entries i
            (get_shard_key_mapping hash m0.shard_count keys i)).2 > 0
          then accl ++ [(i, (c.delete_shard_entries i
            (get_shard_key_mapping hash m0.shard_count keys i)).2)]
          else accl) = _
      rw [hdel]
      rw [hragree]
    rw [hstepEq]
    have ih := delFold_contents hash keys m0 ids
      { c with
        shards := c.shards.set i (removeAll (m0.shards.getD i [])
          (get_shard_key_mapping hash m0.shard_count keys i)).2,
        size := c.size - (removeAll (m0.shards.getD i [])
          (get_shard_key_mapping hash m0.shard_count keys i)).1 }
      (if (removeAll (m0.shards.getD i [])
            (get_shard_key_mapping hash m0.shard_count keys i)).1 > 0
        then accl ++ [(i, (removeAll (m0.shards.getD i [])
          (get_shard_key_mapping hash m0.shard_count keys i)).1)]
        else accl)
      hsc (by simpa using hclen)
      (fun i2 hi2 => hlt i2 (List.mem_cons_of_mem _ hi2))
      (fun i2 hi2 => by
        show (c.shards.set i _).getD i2 [] = _
        rw [getD_set_ne c.shards i i2 _ [] (fun he => hnd.1 (he ▸ hi2))]
        exact hagree i2 (List.mem_cons_of_mem _ hi2))
      hnd.2
    refine ⟨ih.1, ih.2.1, ?_, ?_, ?_⟩
    · intro j hj
      have hji : j ≠ i := fun he => hj (he ▸ List.mem_cons_self _ _)
      have hjids : j ∉ ids := fun hm => hj (List.mem_cons_of_mem _ hm)
      rw [ih.2.2.1 j hjids]
      show (c.shards.set i _).getD j [] = c.shards.getD j []
      rw [getD_set_ne c.shards i j _ [] (fun he => hji he.symm)]
    · intro i2 hi2
      rcases List.mem_cons.1 hi2 with hi2 | hi2
      · subst hi2
        rw [ih.2.2.1 i2 hnd.1]
        by_cases hlen2 : i2 < c.shards.length
        · show (c.shards.set i2 _).getD i2 [] = _
          rw [getD_set_self c.shards i2 _ [] hlen2]
        · show (c.shards.set i2 _).getD i2 [] = _
          rw [List.set_eq_of_length_le (by omega)]
          rw [hagree i2 (List.mem_cons_self _ _)] at hragree ⊢
          have hm0 : m0.shards.getD i2 [] = [] :=
            List.getD_eq_default _ _ (by omega)
          rw [hm0, removeAll_nil_bucket]
      · exact ih.2.2.2.1 i2 hi2
    · rw [ih.2.2.2.2]
      have haccl : sumCounts
          (if (removeAll (m0.shards.getD i [])
                (get_shard_key_mapping hash m0.shard_count keys i)).1 > 0
            then accl ++ [(i, (removeAll (m0.shards.getD i [])
              (get_shard_key_mapping hash m0.shard_count keys i)).1)]
            else accl)
          = sumCounts accl + (removeAll (m0.shards.getD i [])
              (get_shard_key_mapping hash m0.shard_count keys i)).1 := by
        split
        · rw [sumCounts_append_single]
        · omega
      rw [haccl]
      simp only [List.map_cons, List.sum_cons]
      omega

theorem sum_list_range_eq (f : Nat → Nat) (n : Nat) :
    ((List.range n).map f).sum = ∑ i ∈ Finset.range n, f i := rfl

theorem countPartition (S : Nat) (g : List Nat → Nat) (P : List Nat → Bool) :
    ∀ D : List (List Nat), (∀ k ∈ D, P k = true → g k < S) →
    (∑ i ∈ Finset.range S,
        (D.filter (fun k => g k == i && P k)).length) = (D.filter P).length
  | [], _ => by simp
  | k :: D, h => by
    have ih := countPartition S g P D (fun k2 hk2 => h k2 (List.mem_cons_of_mem _ hk2))
    by_cases hP : P k = true
    · have hgk : g k < S := h k (List.mem_cons_self _ _) hP
      have hsplit : ∀ i, ((k :: D).filter (fun k2 => g k2 == i && P k2)).length
          = (if g k = i then 1 else 0)
            + (D.filter (fun k2 => g k2 == i && P k2)).length := by
        intro i
        rw [List.filter_cons]
        by_cases hgi : g k = i
        · simp [hgi, hP]
          omega
        · simp [hgi, hP]
      rw [Finset.sum_congr rfl (fun i _ => hsplit i), Finset.sum_add_distrib, ih,
        Finset.sum_ite_eq (Finset.range S) (g k) (fun _ => 1),
        List.filter_cons, if_pos (Finset.mem_range.2 hgk), if_pos hP]
      simp
      omega
    · have hsplit : ∀ i, ((k :: D).filter (fun k2 => g k2 == i && P k2))
          = D.filter (fun k2 => g k2 == i && P k2) := by
        intro i
        rw [List.filter_cons]
        simp [Bool.not_eq_true] at hP
        simp [hP]
      rw [Finset.sum_congr rfl (fun i _ => congrArg List.length (hsplit i)), ih,
        List.filter_cons]
      simp [Bool.not_eq_true] at hP
      simp [hP]

theorem length_eq_of_nodup_memEq (D1 D2 : List (List Nat))
    (h1 : D1.Nodup) (h2 : D2.Nodup) (hmem : ∀ x, x ∈ D1 ↔ x ∈ D2) :
    D1.length = D2.length :=
  ((List.perm_ext_iff_of_nodup h1 h2).2 hmem).length_eq

theorem mem_shard_mapping (hash : List Nat → Nat) (S : Nat) (keys : List (List Nat))
    (i : Nat) (k : List Nat) :
    k ∈ get_shard_key_mapping hash S keys i
      ↔ k ∈ keys ∧ get_shard_index hash S k = i := by
  simp [get_shard_key_mapping, List.mem_dedup, List.mem_filter]

theorem shard_mapping_nodup (hash : List Nat → Nat) (S : Nat) (keys : List (List Nat))
    (i : Nat) : (get_shard_key_mapping hash S keys i).Nodup :=
  List.nodup_dedup _

/-- C7: `CMap::del_entries` (the store delete summed over shards) returns
exactly the number of DISTINCT input keys present in the store before the
call, and afterwards `get_value` is `None` for every input key.  The
hypothesis is the shape invariant `CMap::new` establishes: one bucket per
shard id. -/
theorem del_entries_count_and_clears (hash : List Nat → Nat) (m : CMap)
    (ks : List (List Nat)) (hlen : m.shards.length = m.shard_count) :
    sumCounts (m.del_entries hash ks).2
      = ((ks.dedup).filter (fun k => (CMap.get_value hash m k).isSome)).length
    ∧ ∀ k ∈ ks, CMap.get_value hash (m.del_entries hash ks).1 k = none := by
  have hfold := delFold_contents hash ks m (List.range m.shard_count) m [] rfl rfl
    (fun i hi => List.mem_range.1 hi) (fun _ _ => rfl) (List.nodup_range _)
  rw [del_entries_eq]
  constructor
  · rw [hfold.2.2.2.2, show sumCounts [] = 0 from rfl, Nat.zero_add,
      sum_list_range_eq]
    have hstep1 : ∀ i ∈ Finset.range m.shard_count,
        (removeAll (m.shards.getD i [])
          (get_shard_key_mapping hash m.shard_count ks i)).1
        = ((ks.dedup).filter (fun k =>
            (get_shard_index hash m.shard_count k == i)
              && (CMap.get_value hash m k).isSome)).length := by
      intro i _
      rw [removeAll_count _ _ (shard_mapping_nodup hash m.shard_count ks i)]
      apply length_eq_of_nodup_memEq
      · exact (shard_mapping_nodup hash m.shard_count ks i).filter _
      · exact (List.nodup_dedup ks).filter _
      · intro x
        rw [List.mem_filter, List.mem_filter, mem_shard_mapping, List.mem_dedup]
        constructor
        · rintro ⟨⟨hxks, hxi⟩, hxp⟩
          refine ⟨hxks, ?_⟩
          have hgv : CMap.get_value hash m x = bucketGet (m.shards.getD i []) x := by
            unfold CMap.get_value
            rw [hxi]
          rw [Bool.and_eq_true, beq_iff_eq, hgv]
          exact ⟨hxi, hxp⟩
        · rintro ⟨hxks, hxq⟩
          rw [Bool.and_eq_true, beq_iff_eq] at hxq
          have hgv : CMap.get_value hash m x = bucketGet (m.shards.getD i []) x := by
            unfold CMap.get_value
            rw [hxq.1]
          refine ⟨⟨hxks, hxq.1⟩, ?_⟩
          rw [← hgv]
          exact hxq.2
    rw [Finset.sum_congr rfl hstep1]
    apply countPartition
    intro k _ hP
    by_contra hge
    have hnone : CMap.get_value hash m k = none := by
      unfold CMap.get_value
      rw [List.getD_eq_default _ _ (by omega)]
      rfl
    rw [hnone] at hP
    simp at hP
  · intro k hk
    by_cases hi : get_shard_index hash m.shard_count k < m.shard_count
    · show bucketGet ((((List.range m.shard_count).foldl
        (delStep hash m.shard_count ks) (m, [])).1).shards.getD
          (get_shard_index hash
            (((List.range m.shard_count).foldl
              (delStep hash m.shard_count ks) (m, [])).1).shard_count k) []) k = none
      rw [hfold.1, hfold.2.2.2.1 (get_shard_index hash m.shard_count k)
        (List.mem_range.2 hi), removeAll_get,
        if_pos ((mem_shard_mapping hash m.shard_count ks _ k).2 ⟨hk, rfl⟩)]
    · show bucketGet ((((List.range m.shard_count).foldl
        (delStep hash m.shard_count ks) (m, [])).1).shards.getD
          (get_shard_index hash
            (((List.range m.shard_count).foldl
              (delStep hash m.shard_count ks) (m, [])).1).shard_count k) []) k = none
      rw [hfold.1, List.getD_eq_default _ _ (by rw [hfold.2.1]; omega)]
      rfl

/-- Witness for C7: deleting `[0]` (present, listed twice) and `[2]`
(absent) from a two-shard store counts 1 and clears the key. -/
theorem del_entries_count_and_clears_witness :
    cmapW7.shards.length = cmapW7.shard_count
    ∧ sumCounts (cmapW7.del_entries hashFn [[0], [2], [0]]).2 = 1
    ∧ CMap.get_value hashFn (cmapW7.del_entries hashFn [[0], [2], [0]]).1 [0] = none := by
  refine ⟨rfl, ?_, ?_⟩
  · rw [(del_entries_count_and_clears hashFn cmapW7 [[0], [2], [0]] rfl).1]
    rfl
  · exact (del_entries_count_and_clears hashFn cmapW7 [[0], [2], [0]] rfl).2 [0]
      (by decide)

theorem CMapInv_applyOps (hash : List Nat → Nat) :
    ∀ (ops : List CMapOp) (m : CMap), CMapInv m → CMapInv (applyOps hash m ops)
  | [], _, h => h
  | op :: ops, m, h => by
    show CMapInv (applyOps hash (applyOp hash m op) ops)
    apply CMapInv_applyOps hash ops
    cases op with
    | set k v => exact CMapInv_set hash m k v h
    | del ks => exact (CMapInv_del hash m ks h).1

/-- C6: after any sequence of `set_kv` and `del_entries` calls on a store
built by `CMap::new`, the atomic aggregate `size` equals the number of
entries stored across all shards; a further `set_kv` adds exactly 1 to
`size` when the key is absent and leaves it unchanged on replace; and a
further `del_entries` subtracts exactly the returned removal count, which
equals the number of entries actually removed. -/
theorem cmap_size_matches_contents (hash : List Nat → Nat) (sc bs : Nat) (m0 : CMap)
    (hnew : CMap.new sc bs = some m0) (ops : List CMapOp) :
    (applyOps hash m0 ops).size = keyCount (applyOps hash m0 ops)
    ∧ (∀ k v, (CMap.set_kv hash (applyOps hash m0 ops) k v).size
        = if (CMap.get_value hash (applyOps hash m0 ops) k).isSome
          then (applyOps hash m0 ops).size
          else (applyOps hash m0 ops).size + 1)
    ∧ (∀ ks,
        ((applyOps hash m0 ops).del_entries hash ks).1.size
            + sumCounts ((applyOps hash m0 ops).del_entries hash ks).2
          = (applyOps hash m0 ops).size
        ∧ keyCount ((applyOps hash m0 ops).del_entries hash ks).1
            + sumCounts ((applyOps hash m0 ops).del_entries hash ks).2
          = keyCount (applyOps hash m0 ops)) := by
  have hinv := CMapInv_applyOps hash ops m0 (CMapInv_new sc bs m0 hnew)
  exact ⟨hinv.2.2.1, fun k v => set_kv_size hash _ k v,
    fun ks => ⟨(CMapInv_del hash _ ks hinv).2.1, (CMapInv_del hash _ ks hinv).2.2⟩⟩

/-- Witness for C6: insert, replace, insert, grouped delete on a fresh
two-shard store, then probe the set and delete deltas. -/
theorem cmap_size_matches_contents_witness :
    CMap.new 2 0 = some cmapW0
    ∧ (applyOps hashFn cmapW0 opsW).size = keyCount (applyOps hashFn cmapW0 opsW)
    ∧ (CMap.set_kv hashFn (applyOps hashFn cmapW0 opsW) [3] [9]).size
        = (if (CMap.get_value hashFn (applyOps hashFn cmapW0 opsW) [3]).isSome
           then (applyOps hashFn cmapW0 opsW).size
           else (applyOps hashFn cmapW0 opsW).size + 1)
    ∧ ((applyOps hashFn cmapW0 opsW).del_entries hashFn [[1]]).1.size
        + sumCounts ((applyOps hashFn cmapW0 opsW).del_entries hashFn [[1]]).2
      = (applyOps hashFn cmapW0 opsW).size :=
  ⟨rfl, (cmap_size_matches_contents hashFn 2 0 cmapW0 rfl opsW).1,
   (cmap_size_matches_contents hashFn 2 0 cmapW0 rfl opsW).2.1 [3] [9],
   ((cmap_size_matches_contents hashFn 2 0 cmapW0 rfl opsW).2.2 [[1]]).1⟩
